import Mathlib

/-!
# clidownloadserver: the negotiated delivery handler, the metadata registry and the port check

A shallow embedding of `clidownloadserver.go`.

Conventions of the embedding.

* A Go `string` is a Lean `String`, read as its sequence of code points (Go strings holding
  valid UTF-8). All separators the program looks for (`/`, `,`, `.gz`) are ASCII, so searching
  by code point and searching by byte agree on such strings.
* Functions of the Go standard library that the program calls are either written out
  (`strings.*`, `strconv.Atoi`, `http.NotFound`, `os.Open`) or taken as fields of `Env`
  (`gzip.NewReader`, `http.ServeFile`, the JSON decoder is an argument of `getMetadata`).
* The handler writes to a fresh `ResponseWriter`; the result of a run is the writer's final
  state together with the list of paths it passed to `os.Open` and to `http.ServeFile`.
* The handler is `getGzipFileRun`: it runs the loop of `io.ReadAll` on the `TeeReader` and
  keeps the states of that loop next to the outcome; `getGzipFile` is its outcome.
* Calls of `log.Println` are left out: no statement below is about the log.
-/

namespace CliDownloadServer

/-! ## The `strings` package -/

/-- Go `strings.HasPrefix` on code-point lists. -/
def hasPrefixChars : List Char → List Char → Bool
  | _, [] => true
  | [], _ :: _ => false
  | c :: s, p :: ps => decide (c = p) && hasPrefixChars s ps

/-- Go `strings.Index(s, sub) >= 0` on code-point lists: `sub` starts at some position of `s`. -/
def containsChars (sub : List Char) : List Char → Bool
  | [] => hasPrefixChars [] sub
  | c :: s => hasPrefixChars (c :: s) sub || containsChars sub s

/-- Go `strings.Contains(s, substr)`. -/
def stringsContains (s substr : String) : Bool :=
  containsChars substr.data s.data

/-- Go `strings.HasSuffix(s, suffix)`:
`len(s) >= len(suffix) && s[len(s)-len(suffix):] == suffix`. -/
def stringsHasSuffix (s suffix : String) : Bool :=
  decide (suffix.data.length ≤ s.data.length) &&
    decide (s.data.drop (s.data.length - suffix.data.length) = suffix.data)

/-- Go `strings.TrimSuffix(s, suffix)`: `s[:len(s)-len(suffix)]` when `s` ends with `suffix`,
else `s` itself. -/
def stringsTrimSuffix (s suffix : String) : String :=
  if stringsHasSuffix s suffix then
    ⟨s.data.take (s.data.length - suffix.data.length)⟩
  else s

/-- Go `strings.Split(s, sep)` for a one-character separator, on code-point lists: the pieces
of `s` between the occurrences of `sep`; one more piece than there are separators. -/
def splitChars (sep : Char) : List Char → List (List Char)
  | [] => [[]]
  | c :: s =>
    if c = sep then [] :: splitChars sep s
    else
      match splitChars sep s with
      | [] => [[c]]
      | p :: ps => (c :: p) :: ps

/-- Go `strings.Split(s, sep)` where `sep` is the one-character string of `sep`. -/
def stringsSplit (s : String) (sep : Char) : List String :=
  (splitChars sep s.data).map String.mk

/-- Go `unicode.IsSpace`: the white space code points of Unicode. -/
def unicodeIsSpace (c : Char) : Bool :=
  let n := c.toNat
  (9 ≤ n && n ≤ 13) || n == 32 || n == 0x85 || n == 0xA0 || n == 0x1680 ||
    (0x2000 ≤ n && n ≤ 0x200a) || n == 0x2028 || n == 0x2029 || n == 0x202f ||
    n == 0x205f || n == 0x3000

/-- Go `strings.TrimSpace(s)`: `s` without its leading and trailing white space. -/
def stringsTrimSpace (s : String) : String :=
  ⟨((s.data.dropWhile unicodeIsSpace).reverse.dropWhile unicodeIsSpace).reverse⟩

/-! ## `isStrInArr` -/

/-- The inner loop of `isStrInArr`: `for _, s := range strings.Split(header, ",")`, returning
at the first piece whose trimmed form is `str`. -/
def isStrInPieces (str : String) : List String → Bool
  | [] => false
  | s :: rest => if stringsTrimSpace s = str then true else isStrInPieces str rest

/-- Source `isStrInArr(headers, str)`: the outer loop over the header values, returning `true`
as soon as the inner loop finds `str`, and `false` after the last header. -/
def isStrInArr (headers : List String) (str : String) : Bool :=
  match headers with
  | [] => false
  | header :: rest =>
    if isStrInPieces str (stringsSplit header ',') then true else isStrInArr rest str

/-! ## The metadata registry -/

/-- Source `fileMetadata`: one descriptor of the bundled list. `Size` is an `int64`. -/
structure fileMetadata where
  Name : String
  Mime : String
  Size : Int
  OS : String
deriving DecidableEq, Repr

/-- A Go `map[string]fileMetadata`, seen through its lookup `v, found := m[k]`. -/
abbrev Registry := String → Option fileMetadata

/-- The empty map of `make(map[string]fileMetadata)`. -/
def Registry.empty : Registry := fun _ => none

/-- The map assignment `res[k] = md`. -/
def Registry.insert (res : Registry) (k : String) (md : fileMetadata) : Registry :=
  fun k' => if k' = k then some md else res k'

/-- The body of the loop of `getMetadata`: rewrite the label `darwin`, then index by name. -/
def getMetadataStep (res : Registry) (md : fileMetadata) : Registry :=
  let md := if md.OS = "darwin" then { md with OS := "macOS" } else md
  res.insert md.Name md

/-- Source `getMetadata(reader)`. The JSON decoder (`json.NewDecoder(reader).Decode`) is the
argument `decode`; a decoding error is returned as it is, with no registry. -/
def getMetadata {ρ ε : Type} (decode : ρ → Except ε (List fileMetadata)) (reader : ρ) :
    Except ε Registry :=
  match decode reader with
  | .error err => .error err
  | .ok fileList => .ok (fileList.foldl getMetadataStep Registry.empty)

/-! ## `validatePort` -/

/-- Go `strconv.IntSize` of a 64-bit platform. -/
def intSize : Nat := 64

/-- The digit loop of `strconv.Atoi` and `strconv.ParseUint` in base 10: the value of a string
of ASCII digits, `none` at the first other character. The accumulator is unbounded here; the
range check follows in `strconvAtoi`. -/
def parseDigits : List Char → Nat → Option Nat
  | [], acc => some acc
  | c :: cs, acc =>
    if 48 ≤ c.toNat ∧ c.toNat ≤ 57 then parseDigits cs (acc * 10 + (c.toNat - 48)) else none

/-- Go `strconv.Atoi(s)`: an optional sign `+` or `-`, then at least one ASCII digit, and the
value has to fit an `int`; `none` stands for the returned `*NumError` (syntax or range). -/
def strconvAtoi (s : String) : Option Int :=
  match s.data with
  | [] => none
  | c :: cs =>
    let neg := decide (c = '-')
    let digits := if c = '-' ∨ c = '+' then cs else c :: cs
    match digits with
    | [] => none
    | d :: ds =>
      match parseDigits (d :: ds) 0 with
      | none => none
      | some n =>
        if neg then (if n ≤ 2 ^ (intSize - 1) then some (-(n : Int)) else none)
        else (if n < 2 ^ (intSize - 1) then some (n : Int) else none)

/-- Go `math.MaxUint16`. -/
def MaxUint16 : Int := 65535

/-- Source `validatePort(port)`: `true` stands for the `nil` error, `false` for either of the
two errors (`wrong port format`, `wrong port number`). -/
def validatePort (port : String) : Bool :=
  match strconvAtoi port with
  | none => false
  | some p => if p ≤ 0 ∨ p > MaxUint16 then false else true

/-! ## The response writer -/

/-- The state of an `http.ResponseWriter`: the header fields in the order they were set, the
status code once it is written, and the body bytes written so far. -/
structure ResponseWriter where
  header : List (String × String) := []
  status : Option Nat := none
  body : List UInt8 := []
deriving DecidableEq, Repr

/-- Go `w.Header().Add(key, value)`. -/
def ResponseWriter.headerAdd (w : ResponseWriter) (key value : String) : ResponseWriter :=
  { w with header := w.header ++ [(key, value)] }

/-- Go `w.Header().Set(key, value)`: the earlier values of `key` are dropped. -/
def ResponseWriter.headerSet (w : ResponseWriter) (key value : String) : ResponseWriter :=
  { w with header := w.header.filter (fun kv => decide (kv.1 ≠ key)) ++ [(key, value)] }

/-- Go `w.Header().Get(key)`: the first value of `key`, the empty string when there is none. -/
def ResponseWriter.headerGet (w : ResponseWriter) (key : String) : String :=
  match w.header.find? (fun kv => decide (kv.1 = key)) with
  | some kv => kv.2
  | none => ""

/-- Go `w.WriteHeader(code)`: the first status code written is the one that counts. -/
def ResponseWriter.WriteHeader (w : ResponseWriter) (code : Nat) : ResponseWriter :=
  match w.status with
  | some _ => w
  | none => { w with status := some code }

/-- Go `w.Write(b)`: writes the status 200 first when no status was written yet. -/
def ResponseWriter.Write (w : ResponseWriter) (b : List UInt8) : ResponseWriter :=
  let w := w.WriteHeader 200
  { w with body := w.body ++ b }

/-- The status code the client gets: the code written, 200 when the handler returned without
writing one. -/
def ResponseWriter.code (w : ResponseWriter) : Nat := w.status.getD 200

/-- Go `fmt.Fprintln(w, s)`. -/
def Fprintln (w : ResponseWriter) (s : String) : ResponseWriter :=
  w.Write (s ++ "\n").toUTF8.data.toList

/-- Go `http.NotFound(w, r)`, that is `http.Error(w, "404 page not found", 404)`. -/
def httpNotFound (w : ResponseWriter) : ResponseWriter :=
  let w := w.headerSet "Content-Type" "text/plain; charset=utf-8"
  let w := w.headerSet "X-Content-Type-Options" "nosniff"
  let w := w.WriteHeader 404
  Fprintln w "404 page not found"

/-! ## Files, readers and the environment of the handler -/

/-- What a path of the file system holds: a regular file with its bytes, or a directory. -/
inductive FsEntry where
  | file (content : List UInt8)
  | dir
deriving DecidableEq, Repr

/-- An `io.Reader` read to its end: the bytes it delivers, and whether it ends with an error
instead of `io.EOF`. -/
structure Reader where
  data : List UInt8
  failed : Bool
deriving DecidableEq, Repr

/-- The request as the handler sees it: `r.Method`, `r.URL.Path` (the prefix already
stripped), `r.Header["Accept-Encoding"]` and the other header fields. -/
structure Request where
  method : String
  path : String
  acceptEncoding : List String
  header : List (String × List String)

/-! ## The copy loop: `io.ReadAll` on an `io.TeeReader`

The two last lines of the handler are `reader := io.TeeReader(fileReader, w)` and
`io.ReadAll(reader)`. This is the loop of `io.ReadAll`, with the buffer `b` that it fills:

    b := make([]byte, 0, 512)
    for {
      n, err := r.Read(b[len(b):cap(b)])   // r is the TeeReader: it writes p[:n] to w
      b = b[:len(b)+n]
      if err != nil { return b, err }
      if len(b) == cap(b) { b = append(b, 0)[:len(b)] }
    }
-/

/-- What the reader and the Go runtime choose during the copy, and the program does not:
`readSize room left` is the number of bytes one `Read` delivers when it is offered `room`
bytes and `left` bytes are still to come; `grow c` is the capacity `append` gives to a full
buffer of capacity `c`. -/
structure CopyPolicy where
  readSize : Nat → Nat → Nat
  grow : Nat → Nat

/-- The state of the loop of `io.ReadAll`: the bytes the reader has still to deliver, the
buffer `b[:len(b)]` of `ReadAll`, its capacity `cap(b)`, and the response writer. -/
structure CopyState where
  rest : List UInt8
  b : List UInt8
  cap : Nat
  w : ResponseWriter
deriving DecidableEq, Repr

/-- The state `io.ReadAll` starts in: `b := make([]byte, 0, 512)`. -/
def copyStart (rd : Reader) (w : ResponseWriter) : CopyState :=
  ⟨rd.data, [], 512, w⟩

/-- One iteration of the loop of `io.ReadAll` on the `TeeReader`. When the reader is at its
end, `Read` returns no byte and an error (`io.EOF` or the reader's failure), `ReadAll`
returns, and the state stays as it is. Else `Read` delivers `n` bytes, at least one and at
most the room `cap(b) - len(b)`, into the buffer; the `TeeReader` writes these bytes to `w`
before `Read` returns; and a buffer that is full gets a larger capacity. -/
def readAllStep (pol : CopyPolicy) (st : CopyState) : CopyState :=
  match st.rest with
  | [] => st
  | x :: xs =>
    let room := st.cap - st.b.length
    let n := max 1 (min (pol.readSize room (x :: xs).length) room)
    let chunk := (x :: xs).take n
    let b := st.b ++ chunk
    ⟨(x :: xs).drop n, b,
      if b.length = st.cap then max (pol.grow st.cap) (st.cap + 1) else st.cap,
      st.w.Write chunk⟩

/-- The state after `k` iterations of the loop, or at its return when that came earlier. -/
def readAllLoop (pol : CopyPolicy) : Nat → CopyState → CopyState
  | 0, st => st
  | k + 1, st => readAllStep pol (readAllLoop pol k st)

/-- The two last lines of the handler, `io.ReadAll(io.TeeReader(fileReader, w))`: the state
at the return of `ReadAll`. Every iteration but the last delivers at least one byte, so the
loop has returned after as many iterations as the reader has bytes (`ioReadAllTee_returns`
below). -/
def ioReadAllTee (pol : CopyPolicy) (rd : Reader) (w : ResponseWriter) : CopyState :=
  readAllLoop pol rd.data.length (copyStart rd w)

/-- The states the copy goes through, in order: the start, then the state after each
iteration, up to the state `io.ReadAll` returns in. -/
def ioReadAllTeeStates (pol : CopyPolicy) (rd : Reader) (w : ResponseWriter) :
    List CopyState :=
  (List.range (rd.data.length + 1)).map (fun k => readAllLoop pol k (copyStart rd w))

/-- The world around the handler: the global `fileServerDir`, the global `fileMetadataList`,
the file system, and the two library routines that are not written out.

* `gzipNewReader c` is `gzip.NewReader` on a reader delivering the bytes `c`: `none` when the
  gzip header cannot be read (the error of `NewReader`), else the decompressing reader.
* `serveFile` is `http.ServeFile(w, r, name)`. It reads the method, the URL path and the
  conditional and range header fields of the request; it does not read `Accept-Encoding`, so
  it gets the request without that field.
* `copy` holds the sizes of the reads and the growth of the buffer during the copy. -/
structure Env where
  fileServerDir : String
  fileMetadataList : Registry
  fs : String → Option FsEntry
  gzipNewReader : List UInt8 → Option Reader
  serveFile : ResponseWriter → String → String → List (String × List String) → String →
    ResponseWriter
  copy : CopyPolicy

/-- Go `os.Open(name)`: an error (`none`) when nothing is at `name`; a directory is opened
like a regular file, it is reading from it that fails. -/
def osOpen (env : Env) (name : String) : Option FsEntry := env.fs name

/-- The opened file as an `io.Reader`: a regular file delivers its bytes, a directory
delivers nothing and fails (`EISDIR`). -/
def fileReader : FsEntry → Reader
  | .file content => ⟨content, false⟩
  | .dir => ⟨[], true⟩

/-- Go `gzip.NewReader(file)`: it reads the gzip header from `file`, so it fails when the
read fails, and when the bytes do not start with a gzip header. -/
def gzipNewReader (env : Env) (file : FsEntry) : Option Reader :=
  match file with
  | .dir => none
  | .file content => env.gzipNewReader content

/-- The net effect on the writer of copying a reader to it: all its bytes are written, and a
reader that delivers nothing causes no write. `ioReadAllTee_writer` shows that the loop of
the handler has this effect. -/
def teeReadAll (rd : Reader) (w : ResponseWriter) : ResponseWriter :=
  if rd.data = [] then w else w.Write rd.data

/-- The result of one run of the handler: the writer at the end, the arguments of the calls of
`os.Open` and those of the calls of `http.ServeFile`. -/
structure Outcome where
  w : ResponseWriter
  opened : List String
  served : List String
deriving DecidableEq, Repr

/-- The handler's run as a whole: the outcome, and the states of the copy loop in order,
from its start to the return of `io.ReadAll`; no state when the handler returns before the
copy. -/
structure Run where
  outcome : Outcome
  copy : List CopyState
deriving DecidableEq, Repr

/-- The two last lines of the handler on the reader `rd`: the loop runs, the writer is the
one of its last state, and the artifact at `filePath` is the file that was opened. -/
def copyToResponse (env : Env) (rd : Reader) (w : ResponseWriter) (filePath : String) : Run :=
  ⟨⟨(ioReadAllTee env.copy rd w).w, [filePath], []⟩, ioReadAllTeeStates env.copy rd w⟩

/-- Source `getGzipFile()`: the handler, with the states of its copy loop. -/
def getGzipFileRun (env : Env) (r : Request) : Run :=
  let w : ResponseWriter := {}
  let fileName := r.path
  let rawName := stringsTrimSuffix fileName ".gz"
  match env.fileMetadataList rawName with
  | none => ⟨⟨httpNotFound w, [], []⟩, []⟩
  | some metadata =>
    if stringsContains fileName "/" then
      ⟨⟨httpNotFound w, [], []⟩, []⟩
    else if stringsHasSuffix fileName ".gz" then
      let filePath := env.fileServerDir ++ "/" ++ fileName
      ⟨⟨env.serveFile w r.method r.path r.header filePath, [], [filePath]⟩, []⟩
    else
      let filePath := env.fileServerDir ++ "/" ++ fileName ++ ".gz"
      match osOpen env filePath with
      | none => ⟨⟨httpNotFound w, [filePath], []⟩, []⟩
      | some file =>
        let w := w.headerAdd "Content-Disposition" ("attachment; filename=\"" ++ fileName ++ "\"")
        let w := w.headerSet "Content-Type" metadata.Mime
        if isStrInArr r.acceptEncoding "gzip" then
          let w := w.headerAdd "Content-Encoding" "gzip"
          copyToResponse env (fileReader file) w filePath
        else
          match gzipNewReader env file with
          | none =>
            let w := w.WriteHeader 500
            ⟨⟨Fprintln w "Something went wrong", [filePath], []⟩, []⟩
          | some zr => copyToResponse env zr w filePath

/-- Source `getGzipFile()`: what the handler leaves behind, that is the response written
and the files opened and served. -/
def getGzipFile (env : Env) (r : Request) : Outcome :=
  (getGzipFileRun env r).outcome

/-! ## Notions used to state the properties

These definitions follow the wording of the properties, not the program. -/

/-- Equality of two strings when the case of the ASCII letters is ignored. -/
def equalIgnoringCase (a b : String) : Bool :=
  decide (a.data.map Char.toLower = b.data.map Char.toLower)

/-- The last record of the descriptor list `L` whose name is `k`. -/
def lastWithName (L : List fileMetadata) (k : String) : Option fileMetadata :=
  L.reverse.find? (fun md => decide (md.Name = k))

/-- The platform-label rule: `darwin` becomes `macOS`, every other label and the other three
fields stay. -/
def normalizePlatform (md : fileMetadata) : fileMetadata :=
  ⟨md.Name, md.Mime, md.Size, if md.OS = "darwin" then "macOS" else md.OS⟩

/-- The ten ASCII digits. -/
def asciiDigits : List Char := ['0', '1', '2', '3', '4', '5', '6', '7', '8', '9']

/-- The value of a list of ASCII digits read in base ten, most significant digit first. -/
def digitsValue (ds : List Char) : Nat :=
  ds.foldl (fun acc c => 10 * acc + (c.toNat - '0'.toNat)) 0

/-- The value of a decimal integer numeral: an optional sign `+` or `-` followed by one or
more ASCII digits; `none` for every other string. -/
def numeralValue (s : String) : Option Int :=
  let negative := s.data.head? = some '-'
  let digits := if s.data.head? = some '-' ∨ s.data.head? = some '+' then s.data.tail
    else s.data
  if digits ≠ [] ∧ ∀ c ∈ digits, c ∈ asciiDigits then
    some (if negative then -(digitsValue digits : Int) else (digitsValue digits : Int))
  else none

/-- The states of a copy of `data` to a writer that was `w0` show an incremental copy: the
copy starts with an empty buffer of capacity 512; in every state the bytes read so far are a
prefix of `data` and the response body is its old content followed by exactly these bytes,
so each chunk is written before the next is read; and from one state to the next the buffer
gains no more than fits the capacity it had. -/
def CopiesIncrementally (w0 : ResponseWriter) (data : List UInt8)
    (states : List CopyState) : Prop :=
  states.head? = some ⟨data, [], 512, w0⟩ ∧
  (∀ st ∈ states, st.b ++ st.rest = data ∧ st.w.body = w0.body ++ st.b) ∧
  List.Chain' (fun st st2 : CopyState => st2.b.length ≤ st.cap) states

/-- The copy of `data` ends with all of `data` in the buffer of `io.ReadAll`: in the last
state nothing is left to read, the buffer holds `data`, and the writer is `w`. -/
def EndsHoldingAll (data : List UInt8) (w : ResponseWriter) (states : List CopyState) : Prop :=
  ∃ st : CopyState, states.getLast? = some st ∧ st.rest = [] ∧ st.b = data ∧ st.w = w

/-- The memory of the handler's copy is bounded by `bound`: in no run of the handler does the
buffer of `io.ReadAll` hold more than `bound` bytes. -/
def HandlerBufferBoundedBy (bound : Nat) : Prop :=
  ∀ (env : Env) (r : Request), ∀ st ∈ (getGzipFileRun env r).copy, st.b.length ≤ bound

/-! ## A small concrete world, used to evaluate the handler -/

/-- A stand-in for `gzip.NewReader` in the examples: a stream is the two magic bytes of gzip
followed by the payload, stored as it is. -/
def toyGzip : List UInt8 → Option Reader
  | 0x1f :: 0x8b :: payload => some ⟨payload, false⟩
  | _ => none

/-- A stand-in for `http.ServeFile` in the examples: a regular file is written out as it is, a
directory is answered with a redirect, anything else with not-found. -/
def toyServeFile (fs : String → Option FsEntry) (w : ResponseWriter) (_method path : String)
    (_header : List (String × List String)) (name : String) : ResponseWriter :=
  match fs name with
  | some (.file content) => teeReadAll ⟨content, false⟩ w
  | some .dir => (w.headerSet "Location" (path ++ "/")).WriteHeader 301
  | none => httpNotFound w

/-- The file system of the examples: the artifact of `a.txt` (the toy compression of the bytes
`104 105`), and a directory called `dir.gz`. -/
def toyFs (name : String) : Option FsEntry :=
  if name = "files/a.txt.gz" then some (.file [0x1f, 0x8b, 104, 105])
  else if name = "files/dir.gz" then some .dir
  else none

/-- The registry of the examples: `a.txt` and `dir` are registered. -/
def toyRegistry : Registry :=
  (Registry.empty.insert "a.txt" ⟨"a.txt", "text/plain", 2, "linux"⟩).insert "dir"
    ⟨"dir", "text/plain", 0, "linux"⟩

/-- The choices of the examples for the copy: a `Read` delivers one byte, and a full buffer
doubles its capacity. -/
def toyPolicy : CopyPolicy :=
  ⟨fun _ _ => 1, fun c => 2 * c⟩

/-- The world of the examples. -/
def toyEnv : Env :=
  ⟨"files", toyRegistry, toyFs, toyGzip, toyServeFile toyFs, toyPolicy⟩

/-- The world of the examples with any `gzip.NewReader` in the place of the stand-in. -/
def toyEnvWith (gz : List UInt8 → Option Reader) : Env :=
  ⟨"files", toyRegistry, toyFs, gz, toyServeFile toyFs, toyPolicy⟩

/-- A world in which the artifact of every name has the bytes `content`. -/
def bigFileEnv (content : List UInt8) : Env :=
  ⟨"files", toyRegistry, fun _ => some (.file content), toyGzip,
    toyServeFile (fun _ => some (.file content)), toyPolicy⟩

/-! ## Facts about the string routines -/

theorem containsChars_singleton (c : Char) (s : List Char) :
    containsChars [c] s = true ↔ c ∈ s := by
  induction s with
  | nil => simp [containsChars, hasPrefixChars]
  | cons a s ih =>
    simp only [containsChars, hasPrefixChars, Bool.or_eq_true, Bool.and_eq_true,
      decide_eq_true_eq, ih, List.mem_cons]
    constructor
    · rintro (⟨h, _⟩ | h)
      · exact Or.inl h.symm
      · exact Or.inr h
    · rintro (h | h)
      · exact Or.inl ⟨h.symm, trivial⟩
      · exact Or.inr h

/-- Looking for the one-character string of `c` is looking for `c`. -/
theorem stringsContains_singleton (s : String) (c : Char) :
    stringsContains s (String.singleton c) = true ↔ c ∈ s.toList :=
  containsChars_singleton c s.data

theorem stringsHasSuffix_iff (s suffix : String) :
    stringsHasSuffix s suffix = true ↔ suffix.toList <:+ s.toList := by
  unfold stringsHasSuffix
  simp only [Bool.and_eq_true, decide_eq_true_eq, String.toList]
  constructor
  · rintro ⟨_, h⟩
    have e := List.take_append_drop (s.data.length - suffix.data.length) s.data
    rw [h] at e
    exact ⟨_, e⟩
  · rintro ⟨t, h⟩
    rw [← h]
    simp

theorem stringsHasSuffix_append (n suffix : String) :
    stringsHasSuffix (n ++ suffix) suffix = true := by
  rw [stringsHasSuffix_iff]
  exact ⟨n.data, by simp [String.toList]⟩

theorem stringsTrimSuffix_append (n suffix : String) :
    stringsTrimSuffix (n ++ suffix) suffix = n := by
  unfold stringsTrimSuffix
  rw [if_pos (stringsHasSuffix_append n suffix)]
  simp

theorem stringsTrimSuffix_of_not_suffix (n suffix : String)
    (h : ¬ suffix.toList <:+ n.toList) : stringsTrimSuffix n suffix = n := by
  unfold stringsTrimSuffix
  rw [if_neg]
  rw [stringsHasSuffix_iff]
  exact h

theorem stringsHasSuffix_of_not_suffix (n suffix : String)
    (h : ¬ suffix.toList <:+ n.toList) : stringsHasSuffix n suffix = false := by
  rw [← Bool.not_eq_true, stringsHasSuffix_iff]
  exact h

theorem stringsContains_slash_append_gz (n : String) :
    stringsContains (n ++ ".gz") "/" = true ↔ '/' ∈ n.toList := by
  have h := stringsContains_singleton (n ++ ".gz") '/'
  have e : String.singleton '/' = "/" := rfl
  rw [e] at h
  rw [h]
  simp [String.toList]

theorem stringsContains_slash (s : String) :
    stringsContains s "/" = true ↔ '/' ∈ s.toList :=
  stringsContains_singleton s '/'

/-! ## The copy loop: incremental writes, and a buffer that keeps everything -/

theorem Write_Write (w : ResponseWriter) (a c : List UInt8) :
    (w.Write a).Write c = w.Write (a ++ c) := by
  cases w with
  | mk hdr st bd =>
    cases st <;> simp [ResponseWriter.Write, ResponseWriter.WriteHeader]

theorem Write_body (w : ResponseWriter) (c : List UInt8) :
    (w.Write c).body = w.body ++ c := by
  cases w with
  | mk hdr st bd =>
    cases st <;> simp [ResponseWriter.Write, ResponseWriter.WriteHeader]

theorem teeReadAll_body (rd : Reader) (w : ResponseWriter) :
    (teeReadAll rd w).body = w.body ++ rd.data := by
  unfold teeReadAll
  by_cases h : rd.data = []
  · simp [h]
  · rw [if_neg h, Write_body]

/-- Writing one more chunk after the bytes `b` is the summary for the bytes `b ++ chunk`. -/
theorem teeReadAll_Write (b chunk : List UInt8) (w : ResponseWriter) (hc : chunk ≠ []) :
    (teeReadAll ⟨b, false⟩ w).Write chunk = teeReadAll ⟨b ++ chunk, false⟩ w := by
  unfold teeReadAll
  have hne : b ++ chunk ≠ [] := by
    intro h
    exact hc (List.append_eq_nil.mp h).2
  by_cases hb : b = []
  · subst hb
    simp only [if_true, List.nil_append, if_neg hc]
  · simp only [if_neg hb, if_neg hne, Write_Write]

theorem readAllStep_nil (pol : CopyPolicy) (st : CopyState) (h : st.rest = []) :
    readAllStep pol st = st := by
  simp only [readAllStep, h]

/-- One iteration keeps the three facts the copy rests on, delivers no more than the room,
and consumes at least one byte when any is left. -/
theorem readAllStep_inv (pol : CopyPolicy) (data : List UInt8) (w0 : ResponseWriter)
    (st : CopyState)
    (h1 : st.b ++ st.rest = data)
    (h2 : st.w = teeReadAll ⟨st.b, false⟩ w0)
    (h3 : st.b.length < st.cap) :
    (readAllStep pol st).b ++ (readAllStep pol st).rest = data ∧
    (readAllStep pol st).w = teeReadAll ⟨(readAllStep pol st).b, false⟩ w0 ∧
    (readAllStep pol st).b.length < (readAllStep pol st).cap ∧
    (readAllStep pol st).b.length ≤ st.cap ∧
    (st.rest ≠ [] → (readAllStep pol st).rest.length < st.rest.length) := by
  cases hrest : st.rest with
  | nil =>
    rw [readAllStep_nil pol st hrest]
    exact ⟨h1, h2, h3, Nat.le_of_lt h3, fun h => absurd rfl h⟩
  | cons x xs =>
    have hn1 : 1 ≤ max 1 (min (pol.readSize (st.cap - st.b.length) (x :: xs).length)
        (st.cap - st.b.length)) := Nat.le_max_left _ _
    have hn2 : max 1 (min (pol.readSize (st.cap - st.b.length) (x :: xs).length)
        (st.cap - st.b.length)) ≤ st.cap - st.b.length := by
      apply Nat.max_le.mpr
      exact ⟨by omega, Nat.min_le_right _ _⟩
    have hstep : readAllStep pol st =
        ⟨(x :: xs).drop (max 1 (min (pol.readSize (st.cap - st.b.length) (x :: xs).length)
            (st.cap - st.b.length))),
          st.b ++ (x :: xs).take (max 1 (min (pol.readSize (st.cap - st.b.length)
            (x :: xs).length) (st.cap - st.b.length))),
          if (st.b ++ (x :: xs).take (max 1 (min (pol.readSize (st.cap - st.b.length)
            (x :: xs).length) (st.cap - st.b.length)))).length = st.cap
          then max (pol.grow st.cap) (st.cap + 1) else st.cap,
          st.w.Write ((x :: xs).take (max 1 (min (pol.readSize (st.cap - st.b.length)
            (x :: xs).length) (st.cap - st.b.length))))⟩ := by
      simp only [readAllStep, hrest]
    rw [hstep]
    generalize max 1 (min (pol.readSize (st.cap - st.b.length) (x :: xs).length)
        (st.cap - st.b.length)) = n at hn1 hn2
    have hchunk : (x :: xs).take n ≠ [] := by
      intro h
      have hl := congrArg List.length h
      simp only [List.length_take, List.length_cons, List.length_nil] at hl
      omega
    have hlen : ((x :: xs).take n).length ≤ n := List.length_take_le _ _
    have hblen : (st.b ++ (x :: xs).take n).length ≤ st.cap := by
      rw [List.length_append]
      omega
    refine ⟨?_, ?_, ?_, hblen, ?_⟩
    · show st.b ++ (x :: xs).take n ++ (x :: xs).drop n = data
      rw [List.append_assoc, List.take_append_drop, ← hrest]
      exact h1
    · show st.w.Write ((x :: xs).take n) = _
      rw [h2]
      exact teeReadAll_Write st.b _ w0 hchunk
    · show (st.b ++ (x :: xs).take n).length <
        (if (st.b ++ (x :: xs).take n).length = st.cap
          then max (pol.grow st.cap) (st.cap + 1) else st.cap)
      by_cases hfull : (st.b ++ (x :: xs).take n).length = st.cap
      · rw [if_pos hfull, hfull]
        exact Nat.lt_of_lt_of_le (Nat.lt_succ_self _) (Nat.le_max_right _ _)
      · rw [if_neg hfull]
        omega
    · intro _
      show ((x :: xs).drop n).length < (x :: xs).length
      rw [List.length_drop]
      simp only [List.length_cons]
      omega

/-- The facts of `readAllStep_inv` hold after any number of iterations, and after `k` of them
at most `len(data) - k` bytes are left to deliver. -/
theorem readAllLoop_inv (pol : CopyPolicy) (rd : Reader) (w0 : ResponseWriter) (k : Nat) :
    (readAllLoop pol k (copyStart rd w0)).b ++ (readAllLoop pol k (copyStart rd w0)).rest
      = rd.data ∧
    (readAllLoop pol k (copyStart rd w0)).w
      = teeReadAll ⟨(readAllLoop pol k (copyStart rd w0)).b, false⟩ w0 ∧
    (readAllLoop pol k (copyStart rd w0)).b.length
      < (readAllLoop pol k (copyStart rd w0)).cap ∧
    (readAllLoop pol k (copyStart rd w0)).rest.length ≤ rd.data.length - k := by
  induction k with
  | zero =>
    refine ⟨rfl, ?_, ?_, ?_⟩
    · show w0 = teeReadAll ⟨[], false⟩ w0
      simp [teeReadAll]
    · show ([] : List UInt8).length < 512
      decide
    · exact Nat.le_refl _
  | succ k ih =>
    obtain ⟨h1, h2, h3, h4⟩ := ih
    obtain ⟨g1, g2, g3, _, g5⟩ :=
      readAllStep_inv pol rd.data w0 (readAllLoop pol k (copyStart rd w0)) h1 h2 h3
    refine ⟨g1, g2, g3, ?_⟩
    show (readAllStep pol (readAllLoop pol k (copyStart rd w0))).rest.length
      ≤ rd.data.length - (k + 1)
    by_cases hr : (readAllLoop pol k (copyStart rd w0)).rest = []
    · rw [readAllStep_nil pol _ hr, hr]
      exact Nat.zero_le _
    · have := g5 hr
      omega

/-- The loop has returned: at the end of `ioReadAllTee` the reader has nothing left. -/
theorem ioReadAllTee_returns (pol : CopyPolicy) (rd : Reader) (w0 : ResponseWriter) :
    (ioReadAllTee pol rd w0).rest = [] := by
  have h := (readAllLoop_inv pol rd w0 rd.data.length).2.2.2
  rw [Nat.sub_self] at h
  exact List.eq_nil_of_length_eq_zero (Nat.le_zero.mp h)

/-- At its return `io.ReadAll` holds every byte of the reader in its buffer. -/
theorem ioReadAllTee_buffer (pol : CopyPolicy) (rd : Reader) (w0 : ResponseWriter) :
    (ioReadAllTee pol rd w0).b = rd.data := by
  have h := (readAllLoop_inv pol rd w0 rd.data.length).1
  have hr : (readAllLoop pol rd.data.length (copyStart rd w0)).rest = [] :=
    ioReadAllTee_returns pol rd w0
  rw [hr, List.append_nil] at h
  exact h

/-- The writer at the end of the loop is the writer of the summary `teeReadAll`, whatever
the sizes of the reads and the growth of the buffer. -/
theorem ioReadAllTee_writer (pol : CopyPolicy) (rd : Reader) (w0 : ResponseWriter) :
    (ioReadAllTee pol rd w0).w = teeReadAll rd w0 := by
  have h := (readAllLoop_inv pol rd w0 rd.data.length).2.1
  have hb : (readAllLoop pol rd.data.length (copyStart rd w0)).b = rd.data :=
    ioReadAllTee_buffer pol rd w0
  rw [hb] at h
  exact h

theorem ioReadAllTeeStates_incremental (pol : CopyPolicy) (rd : Reader)
    (w0 : ResponseWriter) :
    CopiesIncrementally w0 rd.data (ioReadAllTeeStates pol rd w0) := by
  refine ⟨?_, ?_, ?_⟩
  · unfold ioReadAllTeeStates
    rw [List.range_succ_eq_map]
    rfl
  · intro st hst
    unfold ioReadAllTeeStates at hst
    obtain ⟨k, _, rfl⟩ := List.mem_map.mp hst
    obtain ⟨h1, h2, _, _⟩ := readAllLoop_inv pol rd w0 k
    refine ⟨h1, ?_⟩
    rw [h2, teeReadAll_body]
  · unfold ioReadAllTeeStates
    rw [List.chain'_map, List.chain'_range_succ]
    intro k _
    obtain ⟨h1, h2, h3, _⟩ := readAllLoop_inv pol rd w0 k
    exact (readAllStep_inv pol rd.data w0 (readAllLoop pol k (copyStart rd w0)) h1 h2
      h3).2.2.2.1

theorem ioReadAllTeeStates_ends (pol : CopyPolicy) (rd : Reader) (w0 : ResponseWriter) :
    EndsHoldingAll rd.data (ioReadAllTee pol rd w0).w (ioReadAllTeeStates pol rd w0) := by
  refine ⟨ioReadAllTee pol rd w0, ?_, ioReadAllTee_returns pol rd w0,
    ioReadAllTee_buffer pol rd w0, rfl⟩
  unfold ioReadAllTeeStates
  rw [List.range_succ, List.map_append, List.map_singleton, List.getLast?_concat]
  rfl

/-! ## The handler: rejections -/

/-- An unregistered raw name is rejected at once. -/
theorem getGzipFile_unregistered (env : Env) (r : Request)
    (h : env.fileMetadataList (stringsTrimSuffix r.path ".gz") = none) :
    getGzipFile env r = ⟨httpNotFound {}, [], []⟩ := by
  simp only [getGzipFile, getGzipFileRun, h]

/-- A path with a separator is rejected, registered or not. -/
theorem getGzipFile_separator (env : Env) (r : Request)
    (h : stringsContains r.path "/" = true) :
    getGzipFile env r = ⟨httpNotFound {}, [], []⟩ := by
  simp only [getGzipFile, getGzipFileRun]
  split
  · rfl
  · simp only [h, if_true]

/-- Claim C1. A logical name `n` (not ending in `.gz`) that is not a key of the registry: the
handler answers the request for `n` and the request for `n.gz` with `http.NotFound` (status
404), for every file system, method and header, and it has opened and served no file. -/
theorem C1_unregistered_name_not_found (env : Env) (n method : String)
    (acceptEncoding : List String) (header : List (String × List String))
    (hsuffix : ¬ ".gz".toList <:+ n.toList)
    (hreg : env.fileMetadataList n = none) :
    getGzipFile env ⟨method, n, acceptEncoding, header⟩ = ⟨httpNotFound {}, [], []⟩ ∧
    getGzipFile env ⟨method, n ++ ".gz", acceptEncoding, header⟩ = ⟨httpNotFound {}, [], []⟩ ∧
    (httpNotFound {}).code = 404 := by
  refine ⟨?_, ?_, rfl⟩
  · apply getGzipFile_unregistered
    show env.fileMetadataList (stringsTrimSuffix n ".gz") = none
    rw [stringsTrimSuffix_of_not_suffix n ".gz" hsuffix]
    exact hreg
  · apply getGzipFile_unregistered
    show env.fileMetadataList (stringsTrimSuffix (n ++ ".gz") ".gz") = none
    rw [stringsTrimSuffix_append]
    exact hreg

/-- Claim C2. A requested path that contains the separator `/` is answered with
`http.NotFound` (status 404), and no file is opened or served, for every registry (also one
that has the whole path or its last part as a key), file system and `Accept-Encoding`. -/
theorem C2_separator_not_found (env : Env) (r : Request)
    (hsep : '/' ∈ r.path.toList) :
    getGzipFile env r = ⟨httpNotFound {}, [], []⟩ ∧
    (getGzipFile env r).w.code = 404 ∧
    (getGzipFile env r).opened = [] ∧ (getGzipFile env r).served = [] := by
  have h := getGzipFile_separator env r ((stringsContains_slash r.path).mpr hsep)
  rw [h]
  exact ⟨rfl, rfl, rfl, rfl⟩

theorem C1_unregistered_name_not_found_witness :
    (¬ ".gz".toList <:+ "notFound.txt".toList) ∧
    toyEnv.fileMetadataList "notFound.txt" = none ∧
    getGzipFile toyEnv ⟨"GET", "notFound.txt", ["gzip"], []⟩ = ⟨httpNotFound {}, [], []⟩ ∧
    getGzipFile toyEnv ⟨"GET", "notFound.txt" ++ ".gz", ["gzip"], []⟩
      = ⟨httpNotFound {}, [], []⟩ ∧
    (httpNotFound {}).code = 404 :=
  ⟨by decide, by decide,
    C1_unregistered_name_not_found toyEnv "notFound.txt" "GET" ["gzip"] [] (by decide)
      (by decide)⟩

theorem C2_separator_not_found_witness :
    '/' ∈ "subdir/a.txt".toList ∧
    getGzipFile toyEnv ⟨"GET", "subdir/a.txt", ["gzip"], []⟩ = ⟨httpNotFound {}, [], []⟩ ∧
    (getGzipFile toyEnv ⟨"GET", "subdir/a.txt", ["gzip"], []⟩).w.code = 404 ∧
    (getGzipFile toyEnv ⟨"GET", "subdir/a.txt", ["gzip"], []⟩).opened = [] ∧
    (getGzipFile toyEnv ⟨"GET", "subdir/a.txt", ["gzip"], []⟩).served = [] :=
  ⟨by decide, C2_separator_not_found toyEnv ⟨"GET", "subdir/a.txt", ["gzip"], []⟩ (by decide)⟩

/-! ## `strings.Split` and `strings.TrimSpace`: what the pieces are -/

theorem splitChars_ne_nil (sep : Char) (s : List Char) : splitChars sep s ≠ [] := by
  cases s with
  | nil => simp [splitChars]
  | cons c s =>
    unfold splitChars
    by_cases h : c = sep
    · simp [h]
    · rw [if_neg h]
      cases splitChars sep s <;> simp

/-- Joining the pieces with the separator gives the string back. -/
theorem splitChars_intercalate (sep : Char) (s : List Char) :
    [sep].intercalate (splitChars sep s) = s := by
  induction s with
  | nil => simp [splitChars, List.intercalate]
  | cons c s ih =>
    unfold splitChars
    have hne := splitChars_ne_nil sep s
    cases hps : splitChars sep s with
    | nil => exact absurd hps hne
    | cons p ps =>
      rw [hps] at ih
      by_cases h : c = sep
      · rw [if_pos h]
        simp only [List.intercalate, List.intersperse_cons_cons, List.flatten_cons,
          List.nil_append, List.singleton_append] at ih ⊢
        rw [ih, h]
      · rw [if_neg h]
        cases ps with
        | nil =>
          simp only [List.intercalate, List.intersperse_single, List.flatten_cons, List.flatten_nil,
            List.append_nil] at ih ⊢
          rw [ih]
        | cons q qs =>
          simp only [List.intercalate, List.intersperse_cons_cons, List.flatten_cons,
            List.cons_append] at ih ⊢
          rw [ih]

/-- No piece contains the separator. -/
theorem splitChars_no_sep (sep : Char) (s : List Char) :
    ∀ p ∈ splitChars sep s, sep ∉ p := by
  induction s with
  | nil => simp [splitChars]
  | cons c s ih =>
    unfold splitChars
    by_cases h : c = sep
    · rw [if_pos h]
      intro p hp
      rcases List.mem_cons.mp hp with rfl | hp
      · simp
      · exact ih p hp
    · rw [if_neg h]
      cases hps : splitChars sep s with
      | nil => simp; exact fun e => h e.symm
      | cons q qs =>
        rw [hps] at ih
        intro p hp
        rcases List.mem_cons.mp hp with rfl | hp
        · have hq := ih q (List.mem_cons_self _ _)
          intro hmem
          rcases List.mem_cons.mp hmem with e | e
          · exact h e.symm
          · exact hq e
        · exact ih p (List.mem_cons_of_mem _ hp)

/-- Trimming removes white space only, and only at the two ends. -/
theorem stringsTrimSpace_decompose (s : String) :
    ∃ l r : List Char, s.data = l ++ (stringsTrimSpace s).data ++ r ∧
      (∀ c ∈ l, unicodeIsSpace c = true) ∧ (∀ c ∈ r, unicodeIsSpace c = true) := by
  refine ⟨s.data.takeWhile unicodeIsSpace,
    (((s.data.dropWhile unicodeIsSpace).reverse).takeWhile unicodeIsSpace).reverse, ?_, ?_, ?_⟩
  · have h1 := List.takeWhile_append_dropWhile unicodeIsSpace s.data
    have h2 := List.takeWhile_append_dropWhile unicodeIsSpace
      (s.data.dropWhile unicodeIsSpace).reverse
    have h3 := congrArg List.reverse h2
    rw [List.reverse_append, List.reverse_reverse] at h3
    show s.data = _ ++ ((s.data.dropWhile unicodeIsSpace).reverse.dropWhile
      unicodeIsSpace).reverse ++ _
    rw [List.append_assoc, h3, h1]
  · intro c hc
    exact List.mem_takeWhile_imp hc
  · intro c hc
    exact List.mem_takeWhile_imp (List.mem_reverse.mp hc)

theorem stringsSplit_examples :
    stringsSplit "gzip, deflate,,br" ',' = ["gzip", " deflate", "", "br"] ∧
    stringsSplit "" ',' = [""] ∧ stringsSplit "," ',' = ["", ""] ∧
    stringsTrimSpace " \t gzip \r\n" = "gzip" ∧ stringsTrimSpace "g zip" = "g zip" ∧
    stringsTrimSpace "  " = "" := by
  decide

/-! ## `isStrInArr` against its description -/

theorem isStrInPieces_iff (str : String) (pieces : List String) :
    isStrInPieces str pieces = true ↔ ∃ p ∈ pieces, stringsTrimSpace p = str := by
  induction pieces with
  | nil => simp [isStrInPieces]
  | cons p rest ih =>
    by_cases hp : stringsTrimSpace p = str
    · simp [isStrInPieces, hp]
    · simp [isStrInPieces, hp, ih]

theorem isStrInArr_iff (headers : List String) (str : String) :
    isStrInArr headers str = true ↔
      ∃ h ∈ headers, ∃ p ∈ stringsSplit h ',', stringsTrimSpace p = str := by
  induction headers with
  | nil => simp [isStrInArr]
  | cons h rest ih =>
    by_cases hh : isStrInPieces str (stringsSplit h ',') = true
    · have hx := (isStrInPieces_iff str _).mp hh
      simp only [isStrInArr, hh, if_true, true_iff]
      exact ⟨h, List.mem_cons_self _ _, hx⟩
    · have hx : ¬ ∃ p ∈ stringsSplit h ',', stringsTrimSpace p = str :=
        fun hc => hh ((isStrInPieces_iff str _).mpr hc)
      simp only [isStrInArr, hh, if_false, ih, Bool.false_eq_true]
      constructor
      · rintro ⟨h', hm, hp⟩
        exact ⟨h', List.mem_cons_of_mem _ hm, hp⟩
      · rintro ⟨h', hm, hp⟩
        rcases List.mem_cons.mp hm with rfl | hm
        · exact absurd hp hx
        · exact ⟨h', hm, hp⟩

/-! ## The handler: delivery -/

/-- The header the handler sets before streaming, without the encoding field. -/
theorem headers_before_streaming (fileName mime : String) :
    ((({} : ResponseWriter).headerAdd "Content-Disposition" fileName).headerSet
        "Content-Type" mime)
      = ⟨[("Content-Disposition", fileName), ("Content-Type", mime)], none, []⟩ := by
  simp [ResponseWriter.headerAdd, ResponseWriter.headerSet]

/-- A registered name without separator and without `.gz`, whose artifact can be opened: the
handler gets to the negotiation, and copies in either branch but the one of the failed gzip
reader. -/
theorem getGzipFileRun_opened (env : Env) (r : Request) (md : fileMetadata) (file : FsEntry)
    (hreg : env.fileMetadataList r.path = some md)
    (hsep : '/' ∉ r.path.toList)
    (hsuffix : ¬ ".gz".toList <:+ r.path.toList)
    (hopen : env.fs (env.fileServerDir ++ "/" ++ r.path ++ ".gz") = some file) :
    getGzipFileRun env r =
      if isStrInArr r.acceptEncoding "gzip" then
        copyToResponse env (fileReader file)
          ⟨[("Content-Disposition", "attachment; filename=\"" ++ r.path ++ "\""),
            ("Content-Type", md.Mime), ("Content-Encoding", "gzip")], none, []⟩
          (env.fileServerDir ++ "/" ++ r.path ++ ".gz")
      else
        match gzipNewReader env file with
        | none =>
          ⟨⟨Fprintln ⟨[("Content-Disposition", "attachment; filename=\"" ++ r.path ++ "\""),
            ("Content-Type", md.Mime)], some 500, []⟩ "Something went wrong",
            [env.fileServerDir ++ "/" ++ r.path ++ ".gz"], []⟩, []⟩
        | some zr =>
          copyToResponse env zr
            ⟨[("Content-Disposition", "attachment; filename=\"" ++ r.path ++ "\""),
              ("Content-Type", md.Mime)], none, []⟩
            (env.fileServerDir ++ "/" ++ r.path ++ ".gz") := by
  have h1 : stringsTrimSuffix r.path ".gz" = r.path :=
    stringsTrimSuffix_of_not_suffix _ _ hsuffix
  have h2 : stringsHasSuffix r.path ".gz" = false :=
    stringsHasSuffix_of_not_suffix _ _ hsuffix
  have h3 : stringsContains r.path "/" = false := by
    rw [← Bool.not_eq_true, stringsContains_slash]
    exact hsep
  simp only [getGzipFileRun, h1, hreg, h2, h3, osOpen, hopen, headers_before_streaming]
  by_cases hacc : isStrInArr r.acceptEncoding "gzip" = true
  · simp [hacc, ResponseWriter.headerAdd]
  · simp only [hacc, Bool.false_eq_true, if_false]
    cases gzipNewReader env file <;> simp [ResponseWriter.WriteHeader]

/-- The outcome of `getGzipFileRun_opened`, with the copy summed up by `teeReadAll`. -/
theorem getGzipFile_opened (env : Env) (r : Request) (md : fileMetadata) (file : FsEntry)
    (hreg : env.fileMetadataList r.path = some md)
    (hsep : '/' ∉ r.path.toList)
    (hsuffix : ¬ ".gz".toList <:+ r.path.toList)
    (hopen : env.fs (env.fileServerDir ++ "/" ++ r.path ++ ".gz") = some file) :
    getGzipFile env r =
      if isStrInArr r.acceptEncoding "gzip" then
        ⟨teeReadAll (fileReader file)
          ⟨[("Content-Disposition", "attachment; filename=\"" ++ r.path ++ "\""),
            ("Content-Type", md.Mime), ("Content-Encoding", "gzip")], none, []⟩,
          [env.fileServerDir ++ "/" ++ r.path ++ ".gz"], []⟩
      else
        match gzipNewReader env file with
        | none =>
          ⟨Fprintln ⟨[("Content-Disposition", "attachment; filename=\"" ++ r.path ++ "\""),
            ("Content-Type", md.Mime)], some 500, []⟩ "Something went wrong",
            [env.fileServerDir ++ "/" ++ r.path ++ ".gz"], []⟩
        | some zr =>
          ⟨teeReadAll zr
            ⟨[("Content-Disposition", "attachment; filename=\"" ++ r.path ++ "\""),
              ("Content-Type", md.Mime)], none, []⟩,
            [env.fileServerDir ++ "/" ++ r.path ++ ".gz"], []⟩ := by
  unfold getGzipFile
  rw [getGzipFileRun_opened env r md file hreg hsep hsuffix hopen]
  by_cases hacc : isStrInArr r.acceptEncoding "gzip" = true
  · simp only [hacc, if_true, copyToResponse, ioReadAllTee_writer]
  · simp only [hacc, Bool.false_eq_true, if_false]
    cases gzipNewReader env file with
    | none => rfl
    | some zr => simp only [copyToResponse, ioReadAllTee_writer]

/-- Writing out a reader on a writer that has no status and no body yet: status 200 and
exactly the reader's bytes. -/
theorem teeReadAll_fresh (rd : Reader) (hdr : List (String × String)) :
    (teeReadAll rd ⟨hdr, none, []⟩).code = 200 ∧
    (teeReadAll rd ⟨hdr, none, []⟩).body = rd.data ∧
    (teeReadAll rd ⟨hdr, none, []⟩).header = hdr := by
  unfold teeReadAll
  by_cases h : rd.data = []
  · simp [h, ResponseWriter.code]
  · simp [h, ResponseWriter.code, ResponseWriter.Write, ResponseWriter.WriteHeader]

/-- Claim C3. A registered name `n` without separator and without the `.gz` suffix, whose
artifact `<fileServerDir>/n.gz` is a regular file with bytes `content`, requested with an
`Accept-Encoding` that has the token `gzip`: the status is 200, the response carries
`Content-Encoding: gzip` next to the disposition and the registry's content type, the body is
exactly `content`, and the artifact is the one file opened. -/
theorem C3_compressed_passthrough (env : Env) (n method : String)
    (acceptEncoding : List String) (header : List (String × List String))
    (md : fileMetadata) (content : List UInt8)
    (hreg : env.fileMetadataList n = some md)
    (hsep : '/' ∉ n.toList)
    (hsuffix : ¬ ".gz".toList <:+ n.toList)
    (hfile : env.fs (env.fileServerDir ++ "/" ++ n ++ ".gz") = some (.file content))
    (hacc : ∃ h ∈ acceptEncoding, ∃ p ∈ stringsSplit h ',', stringsTrimSpace p = "gzip") :
    (getGzipFile env ⟨method, n, acceptEncoding, header⟩).w.code = 200 ∧
    (getGzipFile env ⟨method, n, acceptEncoding, header⟩).w.headerGet "Content-Encoding"
      = "gzip" ∧
    (getGzipFile env ⟨method, n, acceptEncoding, header⟩).w.header
      = [("Content-Disposition", "attachment; filename=\"" ++ n ++ "\""),
         ("Content-Type", md.Mime), ("Content-Encoding", "gzip")] ∧
    (getGzipFile env ⟨method, n, acceptEncoding, header⟩).w.body = content ∧
    (getGzipFile env ⟨method, n, acceptEncoding, header⟩).opened
      = [env.fileServerDir ++ "/" ++ n ++ ".gz"] := by
  have hin : isStrInArr acceptEncoding "gzip" = true := (isStrInArr_iff _ _).mpr hacc
  rw [getGzipFile_opened env ⟨method, n, acceptEncoding, header⟩ md (.file content) hreg hsep
    hsuffix hfile]
  simp only [hin, if_true]
  obtain ⟨h1, h2, h3⟩ := teeReadAll_fresh (fileReader (.file content))
    [("Content-Disposition", "attachment; filename=\"" ++ n ++ "\""),
      ("Content-Type", md.Mime), ("Content-Encoding", "gzip")]
  refine ⟨h1, ?_, h3, h2, trivial⟩
  simp [ResponseWriter.headerGet, h3]

theorem C3_compressed_passthrough_witness :
    toyEnv.fileMetadataList "a.txt" = some ⟨"a.txt", "text/plain", 2, "linux"⟩ ∧
    '/' ∉ "a.txt".toList ∧ (¬ ".gz".toList <:+ "a.txt".toList) ∧
    toyEnv.fs (toyEnv.fileServerDir ++ "/" ++ "a.txt" ++ ".gz")
      = some (.file [0x1f, 0x8b, 104, 105]) ∧
    (∃ h ∈ ["deflate, gzip"], ∃ p ∈ stringsSplit h ',', stringsTrimSpace p = "gzip") ∧
    (getGzipFile toyEnv ⟨"GET", "a.txt", ["deflate, gzip"], []⟩).w.code = 200 ∧
    (getGzipFile toyEnv ⟨"GET", "a.txt", ["deflate, gzip"], []⟩).w.headerGet
      "Content-Encoding" = "gzip" ∧
    (getGzipFile toyEnv ⟨"GET", "a.txt", ["deflate, gzip"], []⟩).w.header
      = [("Content-Disposition", "attachment; filename=\"" ++ "a.txt" ++ "\""),
         ("Content-Type", "text/plain"), ("Content-Encoding", "gzip")] ∧
    (getGzipFile toyEnv ⟨"GET", "a.txt", ["deflate, gzip"], []⟩).w.body
      = [0x1f, 0x8b, 104, 105] ∧
    (getGzipFile toyEnv ⟨"GET", "a.txt", ["deflate, gzip"], []⟩).opened
      = [toyEnv.fileServerDir ++ "/" ++ "a.txt" ++ ".gz"] :=
  ⟨by decide, by decide, by decide, by decide, by decide,
    C3_compressed_passthrough toyEnv "a.txt" "GET" ["deflate, gzip"] []
      ⟨"a.txt", "text/plain", 2, "linux"⟩ [0x1f, 0x8b, 104, 105]
      (by decide) (by decide) (by decide) (by decide) (by decide)⟩

/-- Claim C4. A registered name `n` without separator and without the `.gz` suffix, whose
artifact `<fileServerDir>/n.gz` is a regular file holding a valid gzip stream (the gzip reader
opens on it and delivers `plain` up to a clean end), requested with an `Accept-Encoding` that
has no token `gzip` (the empty list is the absent header): the status is 200, the body is
exactly `plain`, and the header is the disposition and the registry's content type, with no
`Content-Encoding` field. -/
theorem C4_decompressed_delivery (env : Env) (n method : String)
    (acceptEncoding : List String) (header : List (String × List String))
    (md : fileMetadata) (content plain : List UInt8)
    (hreg : env.fileMetadataList n = some md)
    (hsep : '/' ∉ n.toList)
    (hsuffix : ¬ ".gz".toList <:+ n.toList)
    (hfile : env.fs (env.fileServerDir ++ "/" ++ n ++ ".gz") = some (.file content))
    (hgzip : env.gzipNewReader content = some ⟨plain, false⟩)
    (hacc : ¬ ∃ h ∈ acceptEncoding, ∃ p ∈ stringsSplit h ',', stringsTrimSpace p = "gzip") :
    (getGzipFile env ⟨method, n, acceptEncoding, header⟩).w.code = 200 ∧
    (getGzipFile env ⟨method, n, acceptEncoding, header⟩).w.body = plain ∧
    (getGzipFile env ⟨method, n, acceptEncoding, header⟩).w.header
      = [("Content-Disposition", "attachment; filename=\"" ++ n ++ "\""),
         ("Content-Type", md.Mime)] ∧
    (∀ v, ("Content-Encoding", v) ∉
      (getGzipFile env ⟨method, n, acceptEncoding, header⟩).w.header) ∧
    (getGzipFile env ⟨method, n, acceptEncoding, header⟩).w.headerGet "Content-Encoding"
      = "" := by
  have hin : isStrInArr acceptEncoding "gzip" = false := by
    rw [← Bool.not_eq_true, isStrInArr_iff]
    exact hacc
  rw [getGzipFile_opened env ⟨method, n, acceptEncoding, header⟩ md (.file content) hreg hsep
    hsuffix hfile]
  simp only [hin, Bool.false_eq_true, if_false, gzipNewReader, hgzip]
  obtain ⟨h1, h2, h3⟩ := teeReadAll_fresh ⟨plain, false⟩
    [("Content-Disposition", "attachment; filename=\"" ++ n ++ "\""),
      ("Content-Type", md.Mime)]
  refine ⟨h1, h2, h3, ?_, ?_⟩
  · intro v
    rw [h3]
    simp
  · simp [ResponseWriter.headerGet, h3]

theorem C4_decompressed_delivery_witness :
    toyEnv.fileMetadataList "a.txt" = some ⟨"a.txt", "text/plain", 2, "linux"⟩ ∧
    '/' ∉ "a.txt".toList ∧ (¬ ".gz".toList <:+ "a.txt".toList) ∧
    toyEnv.fs (toyEnv.fileServerDir ++ "/" ++ "a.txt" ++ ".gz")
      = some (.file [0x1f, 0x8b, 104, 105]) ∧
    toyEnv.gzipNewReader [0x1f, 0x8b, 104, 105] = some ⟨[104, 105], false⟩ ∧
    (¬ ∃ h ∈ ([] : List String), ∃ p ∈ stringsSplit h ',', stringsTrimSpace p = "gzip") ∧
    (getGzipFile toyEnv ⟨"GET", "a.txt", [], []⟩).w.code = 200 ∧
    (getGzipFile toyEnv ⟨"GET", "a.txt", [], []⟩).w.body = [104, 105] ∧
    (getGzipFile toyEnv ⟨"GET", "a.txt", [], []⟩).w.header
      = [("Content-Disposition", "attachment; filename=\"" ++ "a.txt" ++ "\""),
         ("Content-Type", "text/plain")] ∧
    (∀ v, ("Content-Encoding", v) ∉ (getGzipFile toyEnv ⟨"GET", "a.txt", [], []⟩).w.header) ∧
    (getGzipFile toyEnv ⟨"GET", "a.txt", [], []⟩).w.headerGet "Content-Encoding" = "" :=
  ⟨by decide, by decide, by decide, by decide, by decide, by decide,
    C4_decompressed_delivery toyEnv "a.txt" "GET" [] []
      ⟨"a.txt", "text/plain", 2, "linux"⟩ [0x1f, 0x8b, 104, 105] [104, 105]
      (by decide) (by decide) (by decide) (by decide) (by decide) (by decide)⟩

/-- Claim C5. A registered name `n` without separator, requested as `n.gz`: the handler hands
the untouched writer (no header field set, nothing written) to `http.ServeFile` with the path
`<fileServerDir>/n.gz`, opens no file itself and so calls no gzip reader; the whole outcome is
the same for every `Accept-Encoding`. -/
theorem C5_gz_request_served_verbatim (env : Env) (n method : String)
    (acceptEncoding : List String) (header : List (String × List String))
    (md : fileMetadata)
    (hreg : env.fileMetadataList n = some md)
    (hsep : '/' ∉ n.toList) :
    getGzipFile env ⟨method, n ++ ".gz", acceptEncoding, header⟩
      = ⟨env.serveFile {} method (n ++ ".gz") header (env.fileServerDir ++ "/" ++ n ++ ".gz"),
          [], [env.fileServerDir ++ "/" ++ n ++ ".gz"]⟩ ∧
    ∀ acceptEncoding2 : List String,
      getGzipFile env ⟨method, n ++ ".gz", acceptEncoding2, header⟩
        = getGzipFile env ⟨method, n ++ ".gz", acceptEncoding, header⟩ := by
  have key : ∀ ae : List String, getGzipFile env ⟨method, n ++ ".gz", ae, header⟩
      = ⟨env.serveFile {} method (n ++ ".gz") header (env.fileServerDir ++ "/" ++ n ++ ".gz"),
          [], [env.fileServerDir ++ "/" ++ n ++ ".gz"]⟩ := by
    intro ae
    have h3 : stringsContains (n ++ ".gz") "/" = false := by
      rw [← Bool.not_eq_true, stringsContains_slash_append_gz]
      exact hsep
    simp only [getGzipFile, getGzipFileRun, stringsTrimSuffix_append, hreg, h3,
      stringsHasSuffix_append, Bool.false_eq_true, if_false, if_true, String.append_assoc]
  exact ⟨key acceptEncoding, fun ae2 => (key ae2).trans (key acceptEncoding).symm⟩

theorem C5_gz_request_served_verbatim_witness :
    toyEnv.fileMetadataList "a.txt" = some ⟨"a.txt", "text/plain", 2, "linux"⟩ ∧
    '/' ∉ "a.txt".toList ∧
    getGzipFile toyEnv ⟨"GET", "a.txt" ++ ".gz", ["gzip"], []⟩
      = ⟨toyEnv.serveFile {} "GET" ("a.txt" ++ ".gz") []
          (toyEnv.fileServerDir ++ "/" ++ "a.txt" ++ ".gz"),
          [], [toyEnv.fileServerDir ++ "/" ++ "a.txt" ++ ".gz"]⟩ ∧
    ∀ acceptEncoding2 : List String,
      getGzipFile toyEnv ⟨"GET", "a.txt" ++ ".gz", acceptEncoding2, []⟩
        = getGzipFile toyEnv ⟨"GET", "a.txt" ++ ".gz", ["gzip"], []⟩ :=
  ⟨by decide, by decide,
    C5_gz_request_served_verbatim toyEnv "a.txt" "GET" ["gzip"] []
      ⟨"a.txt", "text/plain", 2, "linux"⟩ (by decide) (by decide)⟩

/-- Claim C6, evaluated where it fails. The name `dir` is registered and `files/dir.gz` is a
directory. `os.Open` opens the directory, so the handler does not answer not-found: with
`gzip` accepted it returns after a failed read, which is status 200 with an empty body and
`Content-Encoding: gzip`; without it the gzip reader cannot be made and the status is 500;
the request for `dir.gz` is handed to `http.ServeFile` with the directory's path. -/
theorem C6_directory_artifact_is_not_rejected :
    toyEnv.fileMetadataList "dir" = some ⟨"dir", "text/plain", 0, "linux"⟩ ∧
    toyEnv.fs "files/dir.gz" = some FsEntry.dir ∧
    (getGzipFile toyEnv ⟨"GET", "dir", ["gzip"], []⟩).w.code = 200 ∧
    (getGzipFile toyEnv ⟨"GET", "dir", ["gzip"], []⟩).w.body = [] ∧
    (getGzipFile toyEnv ⟨"GET", "dir", ["gzip"], []⟩).w.headerGet "Content-Encoding"
      = "gzip" ∧
    (getGzipFile toyEnv ⟨"GET", "dir", ["gzip"], []⟩).opened = ["files/dir.gz"] ∧
    (getGzipFile toyEnv ⟨"GET", "dir", [], []⟩).w.code = 500 ∧
    (getGzipFile toyEnv ⟨"GET", "dir.gz", [], []⟩).served = ["files/dir.gz"] ∧
    (getGzipFile toyEnv ⟨"GET", "nodir", [], []⟩).w.code = 404 := by
  refine ⟨by decide, by decide, by decide, by decide, by decide, by decide, by decide,
    by decide, by decide⟩

theorem Write_header (w : ResponseWriter) (c : List UInt8) :
    (w.Write c).header = w.header := by
  cases w with
  | mk hdr st bd =>
    cases st <;> simp [ResponseWriter.Write, ResponseWriter.WriteHeader]

theorem Write_code_of_status (w : ResponseWriter) (c : List UInt8) (code : Nat)
    (h : w.status = some code) : (w.Write c).code = code := by
  cases w with
  | mk hdr st bd =>
    simp only at h
    subst h
    simp [ResponseWriter.Write, ResponseWriter.WriteHeader, ResponseWriter.code]

/-- The response when the artifact of a registered name was opened and `isStrInArr` did not
find `gzip`: the header is the disposition and the content type, with no encoding; the
status is 500 when the gzip reader cannot be made, else 200 with the reader's output. -/
theorem getGzipFile_not_selected (env : Env) (r : Request) (md : fileMetadata)
    (file : FsEntry)
    (hreg : env.fileMetadataList r.path = some md)
    (hsep : '/' ∉ r.path.toList)
    (hsuffix : ¬ ".gz".toList <:+ r.path.toList)
    (hopen : env.fs (env.fileServerDir ++ "/" ++ r.path ++ ".gz") = some file)
    (hacc : isStrInArr r.acceptEncoding "gzip" = false) :
    (getGzipFile env r).w.header
      = [("Content-Disposition", "attachment; filename=\"" ++ r.path ++ "\""),
         ("Content-Type", md.Mime)] ∧
    (gzipNewReader env file = none → (getGzipFile env r).w.code = 500) ∧
    (∀ zr : Reader, gzipNewReader env file = some zr →
      (getGzipFile env r).w.code = 200 ∧ (getGzipFile env r).w.body = zr.data) := by
  rw [getGzipFile_opened env r md file hreg hsep hsuffix hopen]
  simp only [hacc, Bool.false_eq_true, if_false]
  cases hz : gzipNewReader env file with
  | none =>
    refine ⟨Write_header _ _, ?_, ?_⟩
    · intro _
      exact Write_code_of_status _ _ 500 rfl
    · intro zr h
      exact absurd h (by simp)
  | some zr0 =>
    obtain ⟨h1, h2, h3⟩ := teeReadAll_fresh zr0
      [("Content-Disposition", "attachment; filename=\"" ++ r.path ++ "\""),
        ("Content-Type", md.Mime)]
    refine ⟨h3, ?_, ?_⟩
    · intro h
      exact absurd h (by simp)
    · intro zr h
      have e : zr0 = zr := Option.some.inj h
      subst e
      exact ⟨h1, h2⟩

/-- Claim C7 as stated fails. The header value `GZIP` has a token equal to `gzip` when case
is ignored, yet `isStrInArr` answers `false`, and for the artifact of `a.txt` the handler
sets no `Content-Encoding`, whatever `gzip.NewReader` does with the artifact. -/
theorem C7_case_insensitive_counterexample :
    (∃ h ∈ ["GZIP"], ∃ p ∈ stringsSplit h ',',
      equalIgnoringCase (stringsTrimSpace p) "gzip" = true) ∧
    isStrInArr ["GZIP"] "gzip" = false ∧
    toyFs "files/a.txt.gz" = some (.file [0x1f, 0x8b, 104, 105]) ∧
    ∀ gz : List UInt8 → Option Reader,
      (getGzipFile (toyEnvWith gz) ⟨"GET", "a.txt", ["GZIP"], []⟩).w.headerGet
          "Content-Encoding" = "" ∧
      ∀ v, ("Content-Encoding", v) ∉
        (getGzipFile (toyEnvWith gz) ⟨"GET", "a.txt", ["GZIP"], []⟩).w.header := by
  refine ⟨by decide, by decide, by decide, fun gz => ?_⟩
  have h := (getGzipFile_not_selected (toyEnvWith gz) ⟨"GET", "a.txt", ["GZIP"], []⟩
    ⟨"a.txt", "text/plain", 2, "linux"⟩ (.file [0x1f, 0x8b, 104, 105])
    (by show toyRegistry "a.txt" = _; decide) (by decide) (by decide)
    (by show toyFs ("files" ++ "/" ++ "a.txt" ++ ".gz") = _; decide) (by decide)).1
  constructor
  · simp [ResponseWriter.headerGet, h]
  · intro v
    rw [h]
    simp

/-- Claim C7, amended. Compressed delivery is selected by an exact, case-sensitive token
match. `isStrInArr(headers, "gzip")` is `true` exactly when some comma-separated,
whitespace-trimmed token of the `Accept-Encoding` values equals `gzip` as it is. Then the
handler, having opened the artifact of a registered name, sets `Content-Encoding: gzip` and
writes exactly the bytes read from the artifact. When every token that equals `gzip` with the
case ignored differs from `gzip`, as `GZIP` and `Gzip` do, compressed delivery is not
selected: `isStrInArr` is `false`, the response has no `Content-Encoding`, and it is the
status 500 when the gzip reader cannot be made and else the output of that reader. -/
theorem C7_exact_token_selects_gzip (env : Env) (n method : String)
    (acceptEncoding : List String) (header : List (String × List String))
    (md : fileMetadata) (file : FsEntry)
    (hreg : env.fileMetadataList n = some md)
    (hsep : '/' ∉ n.toList)
    (hsuffix : ¬ ".gz".toList <:+ n.toList)
    (hopen : env.fs (env.fileServerDir ++ "/" ++ n ++ ".gz") = some file) :
    (isStrInArr acceptEncoding "gzip" = true ↔
      ∃ h ∈ acceptEncoding, ∃ p ∈ stringsSplit h ',', stringsTrimSpace p = "gzip") ∧
    ((∃ h ∈ acceptEncoding, ∃ p ∈ stringsSplit h ',', stringsTrimSpace p = "gzip") →
      isStrInArr acceptEncoding "gzip" = true ∧
      (getGzipFile env ⟨method, n, acceptEncoding, header⟩).w.headerGet "Content-Encoding"
        = "gzip" ∧
      (getGzipFile env ⟨method, n, acceptEncoding, header⟩).w.body
        = (fileReader file).data) ∧
    ((∀ h ∈ acceptEncoding, ∀ p ∈ stringsSplit h ',',
        equalIgnoringCase (stringsTrimSpace p) "gzip" = true → stringsTrimSpace p ≠ "gzip") →
      isStrInArr acceptEncoding "gzip" = false ∧
      (getGzipFile env ⟨method, n, acceptEncoding, header⟩).w.headerGet "Content-Encoding"
        = "" ∧
      (∀ v, ("Content-Encoding", v) ∉
        (getGzipFile env ⟨method, n, acceptEncoding, header⟩).w.header) ∧
      (gzipNewReader env file = none →
        (getGzipFile env ⟨method, n, acceptEncoding, header⟩).w.code = 500) ∧
      (∀ zr : Reader, gzipNewReader env file = some zr →
        (getGzipFile env ⟨method, n, acceptEncoding, header⟩).w.code = 200 ∧
        (getGzipFile env ⟨method, n, acceptEncoding, header⟩).w.body = zr.data)) ∧
    isStrInArr ["GZIP"] "gzip" = false ∧ isStrInArr ["Gzip"] "gzip" = false := by
  refine ⟨isStrInArr_iff _ _, ?_, ?_, by decide, by decide⟩
  · intro hacc
    have hin : isStrInArr acceptEncoding "gzip" = true := (isStrInArr_iff _ _).mpr hacc
    rw [getGzipFile_opened env ⟨method, n, acceptEncoding, header⟩ md file hreg hsep
      hsuffix hopen]
    simp only [hin, if_true]
    obtain ⟨_, h2, h3⟩ := teeReadAll_fresh (fileReader file)
      [("Content-Disposition", "attachment; filename=\"" ++ n ++ "\""),
        ("Content-Type", md.Mime), ("Content-Encoding", "gzip")]
    refine ⟨trivial, ?_, h2⟩
    simp [ResponseWriter.headerGet, h3]
  · intro hcase
    have hin : isStrInArr acceptEncoding "gzip" = false := by
      rw [← Bool.not_eq_true, isStrInArr_iff]
      rintro ⟨h, hh, p, hp, he⟩
      refine hcase h hh p hp ?_ he
      rw [he]
      decide
    obtain ⟨g1, g2, g3⟩ := getGzipFile_not_selected env ⟨method, n, acceptEncoding, header⟩
      md file hreg hsep hsuffix hopen hin
    refine ⟨hin, ?_, ?_, g2, g3⟩
    · simp [ResponseWriter.headerGet, g1]
    · intro v
      rw [g1]
      simp

theorem C7_exact_token_selects_gzip_witness :
    toyEnv.fileMetadataList "a.txt" = some ⟨"a.txt", "text/plain", 2, "linux"⟩ ∧
    '/' ∉ "a.txt".toList ∧ (¬ ".gz".toList <:+ "a.txt".toList) ∧
    toyEnv.fs (toyEnv.fileServerDir ++ "/" ++ "a.txt" ++ ".gz")
      = some (.file [0x1f, 0x8b, 104, 105]) ∧
    ((∃ h ∈ ["br", " gzip ,deflate"], ∃ p ∈ stringsSplit h ',', stringsTrimSpace p = "gzip") ∧
      isStrInArr ["br", " gzip ,deflate"] "gzip" = true ∧
      (getGzipFile toyEnv ⟨"GET", "a.txt", ["br", " gzip ,deflate"], []⟩).w.headerGet
        "Content-Encoding" = "gzip" ∧
      (getGzipFile toyEnv ⟨"GET", "a.txt", ["br", " gzip ,deflate"], []⟩).w.body
        = (fileReader (.file [0x1f, 0x8b, 104, 105])).data) ∧
    ((∀ h ∈ ["GZIP, Gzip", "br"], ∀ p ∈ stringsSplit h ',',
        equalIgnoringCase (stringsTrimSpace p) "gzip" = true → stringsTrimSpace p ≠ "gzip") ∧
      gzipNewReader toyEnv (.file [0x1f, 0x8b, 104, 105]) = some ⟨[104, 105], false⟩ ∧
      isStrInArr ["GZIP, Gzip", "br"] "gzip" = false ∧
      (getGzipFile toyEnv ⟨"GET", "a.txt", ["GZIP, Gzip", "br"], []⟩).w.headerGet
        "Content-Encoding" = "" ∧
      (∀ v, ("Content-Encoding", v) ∉
        (getGzipFile toyEnv ⟨"GET", "a.txt", ["GZIP, Gzip", "br"], []⟩).w.header) ∧
      (getGzipFile toyEnv ⟨"GET", "a.txt", ["GZIP, Gzip", "br"], []⟩).w.code = 200 ∧
      (getGzipFile toyEnv ⟨"GET", "a.txt", ["GZIP, Gzip", "br"], []⟩).w.body
        = [104, 105]) :=
  ⟨by decide, by decide, by decide, by decide,
    ⟨by decide,
      (C7_exact_token_selects_gzip toyEnv "a.txt" "GET" ["br", " gzip ,deflate"] []
        ⟨"a.txt", "text/plain", 2, "linux"⟩ (.file [0x1f, 0x8b, 104, 105])
        (by decide) (by decide) (by decide) (by decide)).2.1 (by decide)⟩,
    ⟨by decide, by decide,
      ((C7_exact_token_selects_gzip toyEnv "a.txt" "GET" ["GZIP, Gzip", "br"] []
        ⟨"a.txt", "text/plain", 2, "linux"⟩ (.file [0x1f, 0x8b, 104, 105])
        (by decide) (by decide) (by decide) (by decide)).2.2.1 (by decide)).1,
      ((C7_exact_token_selects_gzip toyEnv "a.txt" "GET" ["GZIP, Gzip", "br"] []
        ⟨"a.txt", "text/plain", 2, "linux"⟩ (.file [0x1f, 0x8b, 104, 105])
        (by decide) (by decide) (by decide) (by decide)).2.2.1 (by decide)).2.1,
      ((C7_exact_token_selects_gzip toyEnv "a.txt" "GET" ["GZIP, Gzip", "br"] []
        ⟨"a.txt", "text/plain", 2, "linux"⟩ (.file [0x1f, 0x8b, 104, 105])
        (by decide) (by decide) (by decide) (by decide)).2.2.1 (by decide)).2.2.1,
      ((C7_exact_token_selects_gzip toyEnv "a.txt" "GET" ["GZIP, Gzip", "br"] []
        ⟨"a.txt", "text/plain", 2, "linux"⟩ (.file [0x1f, 0x8b, 104, 105])
        (by decide) (by decide) (by decide) (by decide)).2.2.1 (by decide)).2.2.2.2
          ⟨[104, 105], false⟩ (by decide)⟩⟩

/-- Claim C8. `isStrInArr(hs, s)` is `true` exactly when some value of `hs`, split at the
commas, has a piece whose trimmed form is `s` (compared as it is, case included). So it is
`false` on the empty list, `true` when the token comes in a later header value only, and a
piece with a parameter, `gzip;q=1.0`, is not the token `gzip`. -/
theorem C8_isStrInArr_exact_token :
    (∀ (hs : List String) (s : String),
      isStrInArr hs s = true ↔ ∃ h ∈ hs, ∃ p ∈ stringsSplit h ',', stringsTrimSpace p = s) ∧
    (∀ s : String, isStrInArr [] s = false) ∧
    isStrInArr ["deflate", "br, gzip"] "gzip" = true ∧
    isStrInArr ["gzip;q=1.0"] "gzip" = false ∧
    isStrInArr ["GZIP, gZip"] "gzip" = false :=
  ⟨isStrInArr_iff, fun _ => rfl, by decide, by decide, by decide⟩

/-! ## The registry built by `getMetadata` -/

theorem getMetadataStep_eq (res : Registry) (md : fileMetadata) :
    getMetadataStep res md = res.insert md.Name (normalizePlatform md) := by
  unfold getMetadataStep normalizePlatform
  by_cases h : md.OS = "darwin"
  · simp [h]
  · simp [h]

theorem lastWithName_cons (a : fileMetadata) (L : List fileMetadata) (k : String) :
    lastWithName (a :: L) k =
      match lastWithName L k with
      | some md => some md
      | none => if a.Name = k then some a else none := by
  unfold lastWithName
  rw [List.reverse_cons, List.find?_append]
  cases h : List.find? (fun md => decide (md.Name = k)) L.reverse with
  | some md => simp
  | none =>
    by_cases hk : a.Name = k
    · simp [hk]
    · simp [hk]

theorem foldl_getMetadataStep (L : List fileMetadata) (res : Registry) (k : String) :
    (L.foldl getMetadataStep res) k =
      match lastWithName L k with
      | some md => some (normalizePlatform md)
      | none => res k := by
  induction L generalizing res with
  | nil => simp [lastWithName]
  | cons a L ih =>
    rw [List.foldl_cons, ih, lastWithName_cons]
    cases h : lastWithName L k with
    | some md => simp
    | none =>
      simp only [getMetadataStep_eq, Registry.insert]
      by_cases hk : a.Name = k
      · simp [hk]
      · have hk2 : ¬ k = a.Name := fun e => hk e.symm
        simp [hk, hk2]

theorem lastWithName_some (L : List fileMetadata) (k : String) (md : fileMetadata)
    (h : lastWithName L k = some md) : md ∈ L ∧ md.Name = k := by
  unfold lastWithName at h
  have h1 := List.mem_of_find?_eq_some h
  have h2 := List.find?_some h
  exact ⟨List.mem_reverse.mp h1, by simpa using h2⟩

theorem lastWithName_isSome (L : List fileMetadata) (k : String) :
    (lastWithName L k).isSome = true ↔ k ∈ L.map fileMetadata.Name := by
  unfold lastWithName
  rw [List.find?_isSome]
  simp only [List.mem_reverse, decide_eq_true_eq, List.mem_map]

/-- Claim C9. When the descriptor list decodes to `L`, `getMetadata` returns a registry; a
key `k` of it maps to the last record of `L` named `k` with the label `darwin` rewritten to
`macOS` and nothing else changed; its keys are exactly the names in `L`; every key is the name
of its descriptor and no stored descriptor has the label `darwin`. -/
theorem C9_getMetadata_last_wins {ρ ε : Type} (decode : ρ → Except ε (List fileMetadata))
    (reader : ρ) (L : List fileMetadata) (hdec : decode reader = .ok L) :
    ∃ reg : Registry, getMetadata decode reader = .ok reg ∧
      (∀ k, reg k = (lastWithName L k).map normalizePlatform) ∧
      (∀ k, (reg k).isSome = true ↔ k ∈ L.map fileMetadata.Name) ∧
      (∀ k md, reg k = some md → md.Name = k ∧ md.OS ≠ "darwin") := by
  have hlook : ∀ k, (L.foldl getMetadataStep Registry.empty) k
      = (lastWithName L k).map normalizePlatform := by
    intro k
    rw [foldl_getMetadataStep]
    cases lastWithName L k <;> rfl
  refine ⟨L.foldl getMetadataStep Registry.empty, ?_, hlook, ?_, ?_⟩
  · simp only [getMetadata, hdec]
  · intro k
    rw [hlook, ← lastWithName_isSome L k]
    cases lastWithName L k <;> simp
  · intro k md h
    rw [hlook] at h
    cases hl : lastWithName L k with
    | none => rw [hl] at h; cases h
    | some md0 =>
      rw [hl] at h
      have hmd : normalizePlatform md0 = md := by simpa using h
      obtain ⟨_, hname⟩ := lastWithName_some L k md0 hl
      subst hmd
      refine ⟨hname, ?_⟩
      unfold normalizePlatform
      by_cases hos : md0.OS = "darwin"
      · simp only [hos, if_true]; decide
      · simp only [hos, if_false]; exact hos

theorem C9_getMetadata_last_wins_witness :
    (fun L : List fileMetadata => (Except.ok L : Except String (List fileMetadata)))
        [⟨"oc", "application/zip", 10, "darwin"⟩, ⟨"kn", "text/plain", 5, "linux"⟩,
          ⟨"oc", "text/plain", 7, "windows"⟩]
      = .ok [⟨"oc", "application/zip", 10, "darwin"⟩, ⟨"kn", "text/plain", 5, "linux"⟩,
          ⟨"oc", "text/plain", 7, "windows"⟩] ∧
    ∃ reg : Registry,
      getMetadata (fun L : List fileMetadata => (Except.ok L : Except String _))
        [⟨"oc", "application/zip", 10, "darwin"⟩, ⟨"kn", "text/plain", 5, "linux"⟩,
          ⟨"oc", "text/plain", 7, "windows"⟩] = .ok reg ∧
      (∀ k, reg k = (lastWithName
        [⟨"oc", "application/zip", 10, "darwin"⟩, ⟨"kn", "text/plain", 5, "linux"⟩,
          ⟨"oc", "text/plain", 7, "windows"⟩] k).map normalizePlatform) ∧
      (∀ k, (reg k).isSome = true ↔ k ∈ List.map fileMetadata.Name
        [⟨"oc", "application/zip", 10, "darwin"⟩, ⟨"kn", "text/plain", 5, "linux"⟩,
          ⟨"oc", "text/plain", 7, "windows"⟩]) ∧
      (∀ k md, reg k = some md → md.Name = k ∧ md.OS ≠ "darwin") :=
  ⟨rfl, C9_getMetadata_last_wins
    (fun L : List fileMetadata => (Except.ok L : Except String (List fileMetadata)))
    [⟨"oc", "application/zip", 10, "darwin"⟩, ⟨"kn", "text/plain", 5, "linux"⟩,
      ⟨"oc", "text/plain", 7, "windows"⟩]
    [⟨"oc", "application/zip", 10, "darwin"⟩, ⟨"kn", "text/plain", 5, "linux"⟩,
      ⟨"oc", "text/plain", 7, "windows"⟩] rfl⟩

/-! ## `validatePort` -/

theorem mem_asciiDigits_iff (c : Char) : c ∈ asciiDigits ↔ 48 ≤ c.toNat ∧ c.toNat ≤ 57 := by
  constructor
  · intro h
    simp only [asciiDigits, List.mem_cons, List.mem_singleton, List.not_mem_nil, or_false] at h
    rcases h with h | h | h | h | h | h | h | h | h | h <;> subst h <;> decide
  · rintro ⟨h1, h2⟩
    have hc : Char.ofNat c.toNat = c := Char.ofNat_toNat c
    generalize c.toNat = n at hc h1 h2
    subst hc
    interval_cases n <;> decide

theorem parseDigits_eq (ds : List Char) (acc : Nat) :
    parseDigits ds acc =
      if ∀ c ∈ ds, c ∈ asciiDigits then
        some (ds.foldl (fun acc c => 10 * acc + (c.toNat - '0'.toNat)) acc)
      else none := by
  induction ds generalizing acc with
  | nil => simp [parseDigits]
  | cons d ds ih =>
    by_cases hd : d ∈ asciiDigits
    · have hd2 := (mem_asciiDigits_iff d).mp hd
      have e : acc * 10 + (d.toNat - 48) = 10 * acc + (d.toNat - '0'.toNat) := by
        have : '0'.toNat = 48 := rfl
        omega
      simp only [parseDigits, hd2, and_self, if_true, ih, List.forall_mem_cons, hd, true_and,
        List.foldl_cons, e]
    · have hd2 : ¬ (48 ≤ d.toNat ∧ d.toNat ≤ 57) := fun h => hd ((mem_asciiDigits_iff d).mpr h)
      simp [parseDigits, hd2, hd]

theorem intSize_cutoff : (2 : Nat) ^ (intSize - 1) = 9223372036854775808 := by
  norm_num [intSize]

/-- The range check at the end of `strconv.Atoi`, as a check on the signed value. -/
theorem atoi_range (neg : Bool) (n : Nat) (p : Int) :
    (if neg = true then (if n ≤ 2 ^ (intSize - 1) then some (-(n : Int)) else none)
      else (if n < 2 ^ (intSize - 1) then some (n : Int) else none)) = some p
    ↔ (if neg = true then -(n : Int) else (n : Int)) = p ∧
        -9223372036854775808 ≤ p ∧ p < 9223372036854775808 := by
  cases neg
  · rw [if_neg Bool.false_ne_true, if_neg Bool.false_ne_true]
    by_cases h : n < 2 ^ (intSize - 1)
    · rw [if_pos h, Option.some.injEq]
      rw [intSize_cutoff] at h
      constructor
      · intro e; subst e; omega
      · intro e; exact e.1
    · rw [if_neg h]
      rw [intSize_cutoff] at h
      constructor
      · intro e; cases e
      · rintro ⟨e, h1, h2⟩; subst e; omega
  · rw [if_pos rfl, if_pos rfl]
    by_cases h : n ≤ 2 ^ (intSize - 1)
    · rw [if_pos h, Option.some.injEq]
      rw [intSize_cutoff] at h
      constructor
      · intro e; subst e; omega
      · intro e; exact e.1
    · rw [if_neg h]
      rw [intSize_cutoff] at h
      constructor
      · intro e; cases e
      · rintro ⟨e, h1, h2⟩; subst e; omega

theorem atoi_digits (neg : Bool) (digits : List Char) (p : Int) :
    (match digits with
      | [] => none
      | d :: ds =>
        match parseDigits (d :: ds) 0 with
        | none => none
        | some n =>
          if neg = true then (if n ≤ 2 ^ (intSize - 1) then some (-(n : Int)) else none)
          else (if n < 2 ^ (intSize - 1) then some (n : Int) else none)) = some p
    ↔ (digits ≠ [] ∧ ∀ c ∈ digits, c ∈ asciiDigits) ∧
        (if neg = true then -(digitsValue digits : Int) else (digitsValue digits : Int)) = p ∧
        -9223372036854775808 ≤ p ∧ p < 9223372036854775808 := by
  cases digits with
  | nil =>
    constructor
    · intro e; cases e
    · rintro ⟨⟨h, _⟩, _⟩; exact absurd rfl h
  | cons d ds =>
    have hne : d :: ds ≠ [] := List.cons_ne_nil d ds
    show (match parseDigits (d :: ds) 0 with
      | none => none
      | some n =>
        if neg = true then (if n ≤ 2 ^ (intSize - 1) then some (-(n : Int)) else none)
        else (if n < 2 ^ (intSize - 1) then some (n : Int) else none)) = some p ↔ _
    rw [parseDigits_eq]
    by_cases hall : ∀ c ∈ d :: ds, c ∈ asciiDigits
    · rw [if_pos hall]
      show (if neg = true then _ else _) = some p ↔ _
      rw [atoi_range]
      constructor
      · intro h; exact ⟨⟨hne, hall⟩, h⟩
      · intro h; exact h.2
    · rw [if_neg hall]
      constructor
      · intro e; cases e
      · rintro ⟨⟨_, h⟩, _⟩; exact absurd h hall

theorem numeralValue_eq_some (s : String) (p : Int) :
    numeralValue s = some p ↔
      ((if s.data.head? = some '-' ∨ s.data.head? = some '+' then s.data.tail else s.data) ≠ []
        ∧ ∀ c ∈ (if s.data.head? = some '-' ∨ s.data.head? = some '+' then s.data.tail
            else s.data), c ∈ asciiDigits) ∧
      (if s.data.head? = some '-' then
          -(digitsValue (if s.data.head? = some '-' ∨ s.data.head? = some '+' then s.data.tail
            else s.data) : Int)
        else (digitsValue (if s.data.head? = some '-' ∨ s.data.head? = some '+' then
            s.data.tail else s.data) : Int)) = p := by
  simp only [numeralValue]
  by_cases hc : (if s.data.head? = some '-' ∨ s.data.head? = some '+' then s.data.tail
      else s.data) ≠ [] ∧
      ∀ c ∈ (if s.data.head? = some '-' ∨ s.data.head? = some '+' then s.data.tail
        else s.data), c ∈ asciiDigits
  · rw [if_pos hc, Option.some.injEq]
    exact ⟨fun h => ⟨hc, h⟩, fun h => h.2⟩
  · rw [if_neg hc]
    constructor
    · intro e; cases e
    · intro h; exact absurd h.1 hc

/-- The relation of `strconv.Atoi` to the value of a numeral: it returns the value when the
numeral's value fits an `int`, and an error in every other case. -/
theorem strconvAtoi_eq_some (s : String) (p : Int) :
    strconvAtoi s = some p ↔
      numeralValue s = some p ∧ -9223372036854775808 ≤ p ∧ p < 9223372036854775808 := by
  rw [numeralValue_eq_some]
  unfold strconvAtoi
  cases hs : s.data with
  | nil =>
    constructor
    · intro e; cases e
    · rintro ⟨⟨⟨h, _⟩, _⟩, _⟩
      exact absurd rfl h
  | cons c cs =>
    have h := atoi_digits (decide (c = '-')) (if c = '-' ∨ c = '+' then cs else c :: cs) p
    simp only [List.head?_cons, List.tail_cons, Option.some.injEq]
    simp only [decide_eq_true_eq] at h ⊢
    rw [h]
    simp only [and_assoc]

theorem validatePort_iff (port : String) :
    validatePort port = true ↔
      ∃ p : Int, numeralValue port = some p ∧ 1 ≤ p ∧ p ≤ 65535 := by
  unfold validatePort
  cases h : strconvAtoi port with
  | none =>
    constructor
    · intro e; cases e
    · rintro ⟨p, hp, h1, h2⟩
      have hs : strconvAtoi port = some p :=
        (strconvAtoi_eq_some port p).mpr ⟨hp, by omega, by omega⟩
      rw [h] at hs
      cases hs
  | some q =>
    have hq := ((strconvAtoi_eq_some port q).mp h).1
    show (if q ≤ 0 ∨ q > MaxUint16 then false else true) = true ↔ _
    unfold MaxUint16
    by_cases hr : q ≤ 0 ∨ q > 65535
    · rw [if_pos hr]
      constructor
      · intro e; cases e
      · rintro ⟨p, hp, h1, h2⟩
        rw [hq] at hp
        have e : q = p := Option.some.inj hp
        omega
    · rw [if_neg hr]
      constructor
      · intro _
        exact ⟨q, hq, by omega, by omega⟩
      · intro _; rfl

/-- Claim C10. `validatePort(port)` returns no error exactly when `port` is a decimal integer
numeral (an optional sign, then ASCII digits) whose value is between 1 and 65535. So it
returns an error for every string that is no numeral, among them `ABCD`, `AB12`, `12AB` and
`12.34`, for `0`, for every negative value and for every value above 65535; 65535 is accepted
and 65536 is not. -/
theorem C10_validatePort_accepts_1_to_65535 :
    (∀ port : String, validatePort port = true ↔
      ∃ p : Int, numeralValue port = some p ∧ 1 ≤ p ∧ p ≤ 65535) ∧
    (∀ port : String, numeralValue port = none → validatePort port = false) ∧
    (∀ (port : String) (p : Int), numeralValue port = some p → p < 0 →
      validatePort port = false) ∧
    (∀ (port : String) (p : Int), numeralValue port = some p → 65535 < p →
      validatePort port = false) ∧
    validatePort "ABCD" = false ∧ validatePort "AB12" = false ∧
    validatePort "12AB" = false ∧ validatePort "12.34" = false ∧
    validatePort "0" = false ∧ validatePort "-1234" = false ∧
    validatePort "65535" = true ∧ validatePort "65536" = false ∧
    validatePort "1234" = true ∧ validatePort "8080" = true := by
  refine ⟨validatePort_iff, ?_, ?_, ?_, by decide, by decide, by decide, by decide,
    by decide, by decide, by decide, by decide, by decide, by decide⟩
  · intro port hnone
    rw [← Bool.not_eq_true, validatePort_iff]
    rintro ⟨p, hp, _⟩
    rw [hnone] at hp
    cases hp
  · intro port p hp hneg
    rw [← Bool.not_eq_true, validatePort_iff]
    rintro ⟨q, hq, h1, _⟩
    rw [hp] at hq
    have e : p = q := Option.some.inj hq
    omega
  · intro port p hp hbig
    rw [← Bool.not_eq_true, validatePort_iff]
    rintro ⟨q, hq, _, h2⟩
    rw [hp] at hq
    have e : p = q := Option.some.inj hq
    omega

/-! ## The handler's copy: incremental, and not bounded in memory -/

/-- In both streaming branches the handler's run is the copy loop on the streamed reader:
the opened file when `gzip` is accepted, the gzip reader when it is not. -/
theorem getGzipFileRun_streams (env : Env) (r : Request) (md : fileMetadata)
    (content : List UInt8) (rd : Reader)
    (hreg : env.fileMetadataList r.path = some md)
    (hsep : '/' ∉ r.path.toList)
    (hsuffix : ¬ ".gz".toList <:+ r.path.toList)
    (hfile : env.fs (env.fileServerDir ++ "/" ++ r.path ++ ".gz") = some (.file content))
    (hrd : (isStrInArr r.acceptEncoding "gzip" = true ∧ rd = fileReader (.file content)) ∨
      (isStrInArr r.acceptEncoding "gzip" = false ∧ env.gzipNewReader content = some rd)) :
    getGzipFileRun env r =
      copyToResponse env rd
        ⟨[("Content-Disposition", "attachment; filename=\"" ++ r.path ++ "\""),
            ("Content-Type", md.Mime)] ++
          (if isStrInArr r.acceptEncoding "gzip" = true then [("Content-Encoding", "gzip")]
            else []), none, []⟩
        (env.fileServerDir ++ "/" ++ r.path ++ ".gz") := by
  rw [getGzipFileRun_opened env r md (.file content) hreg hsep hsuffix hfile]
  rcases hrd with ⟨hacc, hrd⟩ | ⟨hacc, hrd⟩
  · simp only [hacc, if_true, hrd, List.cons_append, List.nil_append]
  · simp only [hacc, Bool.false_eq_true, if_false, gzipNewReader, hrd, List.append_nil]

/-- Claim C11 as stated fails. With `gzip` accepted, the handler ends its copy of the artifact
of `a.txt` with the whole artifact in the buffer of `io.ReadAll`; with `gzip` not accepted it
ends with the whole output of the gzip reader in that buffer, whatever `gzip.NewReader` is;
and no bound holds for the buffer over the runs of the handler. -/
theorem C11_bounded_memory_counterexample :
    toyFs "files/a.txt.gz" = some (.file [0x1f, 0x8b, 104, 105]) ∧
    ((getGzipFileRun toyEnv ⟨"GET", "a.txt", ["gzip"], []⟩).copy.getLast?).map CopyState.b
      = some [0x1f, 0x8b, 104, 105] ∧
    (∀ (gz : List UInt8 → Option Reader) (zr : Reader),
      gz [0x1f, 0x8b, 104, 105] = some zr →
      ((getGzipFileRun (toyEnvWith gz) ⟨"GET", "a.txt", [], []⟩).copy.getLast?).map
        CopyState.b = some zr.data) ∧
    ¬ ∃ bound : Nat, HandlerBufferBoundedBy bound := by
  refine ⟨by decide, by decide, ?_, ?_⟩
  · intro gz zr hzr
    rw [getGzipFileRun_streams (toyEnvWith gz) ⟨"GET", "a.txt", [], []⟩
      ⟨"a.txt", "text/plain", 2, "linux"⟩ [0x1f, 0x8b, 104, 105] zr
      (by show toyRegistry "a.txt" = _; decide) (by decide) (by decide)
      (by show toyFs ("files" ++ "/" ++ "a.txt" ++ ".gz") = _; decide)
      (Or.inr ⟨by decide, hzr⟩)]
    obtain ⟨st, hlast, _, hb, _⟩ := ioReadAllTeeStates_ends (toyEnvWith gz).copy zr
      ⟨[("Content-Disposition", "attachment; filename=\"" ++ "a.txt" ++ "\""),
          ("Content-Type", "text/plain")] ++
        (if isStrInArr [] "gzip" = true then [("Content-Encoding", "gzip")] else []),
        none, []⟩
    show Option.map CopyState.b (ioReadAllTeeStates _ zr _).getLast? = some zr.data
    rw [hlast, Option.map_some', hb]
  · rintro ⟨bound, hb⟩
    have hrun := getGzipFileRun_streams (bigFileEnv (List.replicate (bound + 1) 0))
      ⟨"GET", "a.txt", ["gzip"], []⟩ ⟨"a.txt", "text/plain", 2, "linux"⟩
      (List.replicate (bound + 1) 0) (fileReader (.file (List.replicate (bound + 1) 0)))
      (by show toyRegistry "a.txt" = _; decide) (by decide) (by decide) rfl
      (Or.inl ⟨by decide, rfl⟩)
    obtain ⟨st, hlast, _, hbuf, _⟩ := ioReadAllTeeStates_ends
      (bigFileEnv (List.replicate (bound + 1) 0)).copy
      (fileReader (.file (List.replicate (bound + 1) 0)))
      ⟨[("Content-Disposition", "attachment; filename=\"" ++ "a.txt" ++ "\""),
          ("Content-Type", "text/plain")] ++
        (if isStrInArr ["gzip"] "gzip" = true then [("Content-Encoding", "gzip")] else []),
        none, []⟩
    have hmem : st ∈ (getGzipFileRun (bigFileEnv (List.replicate (bound + 1) 0))
        ⟨"GET", "a.txt", ["gzip"], []⟩).copy := by
      rw [hrun]
      exact List.mem_of_getLast?_eq_some hlast
    have hle := hb _ _ st hmem
    rw [hbuf] at hle
    have hlen : (fileReader (.file (List.replicate (bound + 1) (0 : UInt8)))).data.length
        = bound + 1 := List.length_replicate _ _
    omega

/-- Claim C11, amended. In both streaming branches of the handler (a registered name whose
artifact is a regular file; `rd` is the opened file when `gzip` is accepted, and the gzip
reader when it is not) the copy to the response is chunked and incremental: the loop starts
with an empty buffer, and in every state it goes through the response body holds exactly
the bytes read so far, each read adding no more than fits the buffer's capacity. It is not
bounded in memory: the loop returns with all bytes of `rd`, that is the whole artifact or the
whole decompressed content, in the buffer of `io.ReadAll`; the writer of that last state is
the response, whose body is these bytes. -/
theorem C11_copy_incremental_buffer_keeps_all (env : Env) (n method : String)
    (acceptEncoding : List String) (header : List (String × List String))
    (md : fileMetadata) (content : List UInt8) (rd : Reader)
    (hreg : env.fileMetadataList n = some md)
    (hsep : '/' ∉ n.toList)
    (hsuffix : ¬ ".gz".toList <:+ n.toList)
    (hfile : env.fs (env.fileServerDir ++ "/" ++ n ++ ".gz") = some (.file content))
    (hrd : (isStrInArr acceptEncoding "gzip" = true ∧ rd = fileReader (.file content)) ∨
      (isStrInArr acceptEncoding "gzip" = false ∧ env.gzipNewReader content = some rd)) :
    CopiesIncrementally
      ⟨[("Content-Disposition", "attachment; filename=\"" ++ n ++ "\""),
          ("Content-Type", md.Mime)] ++
        (if isStrInArr acceptEncoding "gzip" = true then [("Content-Encoding", "gzip")]
          else []), none, []⟩
      rd.data (getGzipFileRun env ⟨method, n, acceptEncoding, header⟩).copy ∧
    EndsHoldingAll rd.data (getGzipFile env ⟨method, n, acceptEncoding, header⟩).w
      (getGzipFileRun env ⟨method, n, acceptEncoding, header⟩).copy ∧
    (getGzipFile env ⟨method, n, acceptEncoding, header⟩).w.body = rd.data ∧
    ∃ st ∈ (getGzipFileRun env ⟨method, n, acceptEncoding, header⟩).copy,
      st.b.length = rd.data.length := by
  have hrun := getGzipFileRun_streams env ⟨method, n, acceptEncoding, header⟩ md content rd
    hreg hsep hsuffix hfile hrd
  have hinc := ioReadAllTeeStates_incremental env.copy rd
    ⟨[("Content-Disposition", "attachment; filename=\"" ++ n ++ "\""),
        ("Content-Type", md.Mime)] ++
      (if isStrInArr acceptEncoding "gzip" = true then [("Content-Encoding", "gzip")]
        else []), none, []⟩
  have hend := ioReadAllTeeStates_ends env.copy rd
    ⟨[("Content-Disposition", "attachment; filename=\"" ++ n ++ "\""),
        ("Content-Type", md.Mime)] ++
      (if isStrInArr acceptEncoding "gzip" = true then [("Content-Encoding", "gzip")]
        else []), none, []⟩
  unfold getGzipFile
  rw [hrun]
  refine ⟨hinc, hend, ?_, ?_⟩
  · show (ioReadAllTee env.copy rd _).w.body = rd.data
    rw [ioReadAllTee_writer, teeReadAll_body]
    rfl
  · obtain ⟨st, hlast, _, hb, _⟩ := hend
    exact ⟨st, List.mem_of_getLast?_eq_some hlast, by rw [hb]⟩

theorem C11_copy_incremental_buffer_keeps_all_witness :
    toyEnv.fileMetadataList "a.txt" = some ⟨"a.txt", "text/plain", 2, "linux"⟩ ∧
    '/' ∉ "a.txt".toList ∧ (¬ ".gz".toList <:+ "a.txt".toList) ∧
    toyEnv.fs (toyEnv.fileServerDir ++ "/" ++ "a.txt" ++ ".gz")
      = some (.file [0x1f, 0x8b, 104, 105]) ∧
    isStrInArr ["gzip"] "gzip" = true ∧
    isStrInArr ["identity"] "gzip" = false ∧
    toyEnv.gzipNewReader [0x1f, 0x8b, 104, 105] = some ⟨[104, 105], false⟩ ∧
    (getGzipFileRun toyEnv ⟨"GET", "a.txt", ["gzip"], []⟩).copy.map
        (fun st => (st.b, st.w.body, st.rest))
      = [([], [], [0x1f, 0x8b, 104, 105]),
         ([0x1f], [0x1f], [0x8b, 104, 105]),
         ([0x1f, 0x8b], [0x1f, 0x8b], [104, 105]),
         ([0x1f, 0x8b, 104], [0x1f, 0x8b, 104], [105]),
         ([0x1f, 0x8b, 104, 105], [0x1f, 0x8b, 104, 105], [])] ∧
    (getGzipFileRun toyEnv ⟨"GET", "a.txt", ["identity"], []⟩).copy.map
        (fun st => (st.b, st.w.body, st.rest))
      = [([], [], [104, 105]), ([104], [104], [105]), ([104, 105], [104, 105], [])] ∧
    (CopiesIncrementally
      ⟨[("Content-Disposition", "attachment; filename=\"" ++ "a.txt" ++ "\""),
          ("Content-Type", "text/plain")] ++
        (if isStrInArr ["gzip"] "gzip" = true then [("Content-Encoding", "gzip")]
          else []), none, []⟩
      (fileReader (.file [0x1f, 0x8b, 104, 105])).data (getGzipFileRun toyEnv ⟨"GET", "a.txt", ["gzip"], []⟩).copy ∧
    EndsHoldingAll (fileReader (.file [0x1f, 0x8b, 104, 105])).data (getGzipFile toyEnv ⟨"GET", "a.txt", ["gzip"], []⟩).w
      (getGzipFileRun toyEnv ⟨"GET", "a.txt", ["gzip"], []⟩).copy ∧
    (getGzipFile toyEnv ⟨"GET", "a.txt", ["gzip"], []⟩).w.body = (fileReader (.file [0x1f, 0x8b, 104, 105])).data ∧
    ∃ st ∈ (getGzipFileRun toyEnv ⟨"GET", "a.txt", ["gzip"], []⟩).copy,
      st.b.length = (fileReader (.file [0x1f, 0x8b, 104, 105])).data.length) ∧
    (CopiesIncrementally
      ⟨[("Content-Disposition", "attachment; filename=\"" ++ "a.txt" ++ "\""),
          ("Content-Type", "text/plain")] ++
        (if isStrInArr ["identity"] "gzip" = true then [("Content-Encoding", "gzip")]
          else []), none, []⟩
      ((⟨[104, 105], false⟩ : Reader)).data (getGzipFileRun toyEnv ⟨"GET", "a.txt", ["identity"], []⟩).copy ∧
    EndsHoldingAll ((⟨[104, 105], false⟩ : Reader)).data (getGzipFile toyEnv ⟨"GET", "a.txt", ["identity"], []⟩).w
      (getGzipFileRun toyEnv ⟨"GET", "a.txt", ["identity"], []⟩).copy ∧
    (getGzipFile toyEnv ⟨"GET", "a.txt", ["identity"], []⟩).w.body = ((⟨[104, 105], false⟩ : Reader)).data ∧
    ∃ st ∈ (getGzipFileRun toyEnv ⟨"GET", "a.txt", ["identity"], []⟩).copy,
      st.b.length = ((⟨[104, 105], false⟩ : Reader)).data.length) :=
  ⟨by decide, by decide, by decide, by decide, by decide, by decide, by decide, by decide,
    by decide,
    C11_copy_incremental_buffer_keeps_all toyEnv "a.txt" "GET" ["gzip"] []
      ⟨"a.txt", "text/plain", 2, "linux"⟩ [0x1f, 0x8b, 104, 105]
      (fileReader (.file [0x1f, 0x8b, 104, 105]))
      (by decide) (by decide) (by decide) (by decide) (Or.inl ⟨by decide, rfl⟩),
    C11_copy_incremental_buffer_keeps_all toyEnv "a.txt" "GET" ["identity"] []
      ⟨"a.txt", "text/plain", 2, "linux"⟩ [0x1f, 0x8b, 104, 105] ⟨[104, 105], false⟩
      (by decide) (by decide) (by decide) (by decide) (Or.inr ⟨by decide, by decide⟩)⟩

end CliDownloadServer
